import Mathlib

/-!
Verification of the pytest-samples history store, selection engine and
timeout governor against a shallow embedding of the source.

The embedding mirrors `src/pytest_samples`:
* `database/_session.py` — the `Session` operations on the two-table store;
* `database/_engine.py` — the engine lifecycle with its disposal flag;
* `tools/_collectiontools.py` — `move_idx_to_end`;
* `tools/_iterabletools.py` — `count_truefalse`;
* `plugin/_broker_base.py` — the soft-timeout governor;
* `plugin/_broker_stateful.py` — the collection hook and the lazy broker's
  end-of-run reconciliation.

Machine state (the SQLite database) is modelled as an explicit `DbState`
value threaded through the operations; operations that can raise are
embedded into `Except Exc`.  An `Except.error` result models an exception
propagating out of the corresponding nested transaction: the caller keeps
the pre-state, which is exactly the rollback semantics of the source.
-/

deriving instance DecidableEq for Except

namespace PytestSamples

/-- The exceptions raised by the modelled code paths. -/
inductive Exc where
  | MultipleResultsFound
  | IndexError
  | ValueError
  | EngineDisposedError
deriving DecidableEq

/-- `types.Location`: the `(file, lineno, testname)` triple identifying a
test item. -/
structure Location where
  file : String
  lineno : Option Nat
  testname : String
deriving DecidableEq

/-- Row of the `test_file` table (`database/_defs.py`, class `TestFile`). -/
structure TestFile where
  id : Nat
  path : String
  last_hash : Option Nat
deriving DecidableEq

/-- Row of the `test_item` table (`database/_defs.py`, class `TestItem`). -/
structure TestItem where
  id : Nat
  file_id : Nat
  lineno : Option Nat
  testname : String
  last_run : Int
deriving DecidableEq

/-- The persistent store: the two tables plus the surrogate-key counters
the backing engine uses to assign fresh `id`s on insert. -/
structure DbState where
  files : List TestFile
  items : List TestItem
  next_file_id : Nat
  next_item_id : Nat
deriving DecidableEq

/-- Whether an item row matches the identity `(file_id, lineno, testname)`
(the compound uniqueness constraint of `test_item`). -/
def TestItem.matchesIdent (it : TestItem) (fid : Nat) (ln : Option Nat)
    (tn : String) : Bool :=
  it.file_id == fid && it.lineno == ln && it.testname == tn

/-- The rows of `test_file` whose `path` column equals `p` (the WHERE
clause of `Session._try_get_file`). -/
def filesWithPath (s : DbState) (p : String) : List TestFile :=
  s.files.filter (fun f => f.path == p)

/-- The rows of `test_item` matching an identity (the WHERE clause of
`Session._try_get_item` and of the delete in `Session._try_delete_item`). -/
def itemsMatching (s : DbState) (fid : Nat) (ln : Option Nat) (tn : String) :
    List TestItem :=
  s.items.filter (fun it => it.matchesIdent fid ln tn)

/-- `Session._try_get_file`: `scalar_one_or_none` over the path match —
`none` for no row, the row if unique, `MultipleResultsFound` otherwise. -/
def tryGetFile (s : DbState) (p : String) : Except Exc (Option TestFile) :=
  match filesWithPath s p with
  | [] => .ok none
  | [f] => .ok (some f)
  | _ => .error .MultipleResultsFound

/-- `Session._try_get_item`: `scalar_one_or_none` over the identity
match. -/
def tryGetItem (s : DbState) (fid : Nat) (ln : Option Nat) (tn : String) :
    Except Exc (Option TestItem) :=
  match itemsMatching s fid ln tn with
  | [] => .ok none
  | [it] => .ok (some it)
  | _ => .error .MultipleResultsFound

/-- Specification vocabulary: the store "has a stored TestItem" at a
location iff some file row carries the location's path and some item row
under that file matches the location's line number and test name. -/
def locPresentB (s : DbState) (l : Location) : Bool :=
  s.files.any (fun f =>
    f.path == l.file &&
      s.items.any (fun it => it.matchesIdent f.id l.lineno l.testname))

/-- `Session.invalidate_hash`: inside one nested transaction, set the
file's `last_hash` to the new hash, delete every `TestItem` whose
`file_id` references the file, and return the delete rowcount. -/
def invalidate_hash (s : DbState) (fid : Nat) (new_hash : Nat) :
    DbState × Nat :=
  let files' := s.files.map (fun f =>
    if f.id == fid then { f with last_hash := some new_hash } else f)
  let deleted := s.items.filter (fun it => it.file_id == fid)
  let kept := s.items.filter (fun it => !(it.file_id == fid))
  ({ s with files := files', items := kept }, deleted.length)

/-- `Session.drop_all_entries`: delete all items, then all files,
returning both rowcounts. -/
def drop_all_entries (s : DbState) : DbState × (Nat × Nat) :=
  ({ s with files := [], items := [] }, (s.files.length, s.items.length))

/-- The two-field result of `Session.bulk_add_update_remove`
(`BulkUpdateResult` in `database/_session.py`). -/
structure BulkUpdateResult where
  added : Nat
  updated : Nat
  removed : Nat
  pruned_files : Option Nat
deriving DecidableEq

/-- `tools.count_truefalse`: one pass over an iterable of booleans with a
`true` counter and a `false` counter, returned in that order. -/
def count_truefalse (it : List Bool) : Nat × Nat :=
  it.foldl (fun (c : Nat × Nat) b => if b then (c.1 + 1, c.2) else (c.1, c.2 + 1))
    (0, 0)

/-- `TestItem.location` (`database/_defs.py`): resolve the owning file row
to recover `(file.path, lineno, testname)`.  `none` when the foreign key
dangles (the source would fail there; well-formed stores never do). -/
def resolveLocation (files : List TestFile) (it : TestItem) : Option Location :=
  (files.find? (fun f => f.id == it.file_id)).map
    (fun f => ⟨f.path, it.lineno, it.testname⟩)

/-- The keep-condition of the loop in `Session._prune_items`: an item
survives iff its resolved location is among the known locations. -/
def keepItem (files : List TestFile) (known : List Location)
    (it : TestItem) : Bool :=
  match resolveLocation files it with
  | some l => known.contains l
  | none => false

/-- The loop of `Session._prune_items`: walk all item rows, delete those
whose location is not known, and count the deletions. -/
def pruneItemsLoop (files : List TestFile) (known : List Location) :
    List TestItem → List TestItem × Nat
  | [] => ([], 0)
  | it :: rest =>
    let r := pruneItemsLoop files known rest
    if keepItem files known it then (it :: r.1, r.2) else (r.1, r.2 + 1)

/-- `Session.prune_items`: run the pruning loop inside one nested
transaction and return the new state with the count deleted. -/
def prune_items (s : DbState) (known : List Location) : DbState × Nat :=
  let r := pruneItemsLoop s.files known s.items
  ({ s with items := r.1 }, r.2)

/-- `Session._prune_files`: delete every file row owning no item row,
returning the rowcount. -/
def pruneFilesInner (s : DbState) : DbState × Nat :=
  let orphaned := s.files.filter
    (fun f => !(s.items.any (fun it => it.file_id == f.id)))
  let kept := s.files.filter
    (fun f => s.items.any (fun it => it.file_id == f.id))
  ({ s with files := kept }, orphaned.length)

/-- `Session.add_or_update_item`: look the identity up; update the
existing row's `last_run` when found, insert a fresh row otherwise. -/
def add_or_update_item (s : DbState) (fid : Nat) (ln : Option Nat)
    (tn : String) (last_run : Int) : Except Exc (DbState × TestItem) := do
  let found ← tryGetItem s fid ln tn
  match found with
  | none =>
    let it : TestItem := ⟨s.next_item_id, fid, ln, tn, last_run⟩
    .ok ({ s with items := s.items ++ [it],
                  next_item_id := s.next_item_id + 1 }, it)
  | some it =>
    let upd := fun (j : TestItem) =>
      if j.matchesIdent fid ln tn then { j with last_run := last_run } else j
    .ok ({ s with items := s.items.map upd }, { it with last_run := last_run })

/-- `Session._try_delete_item`: resolve the file by path; absent file
means nothing to delete; otherwise delete the identity matches and check
the rowcount afterwards, raising `MultipleResultsFound` on more than one
row (the uniqueness-corruption signal) — a rowcount check after the
delete, not a pre-query.  An error rolls the nested transaction back, so
the caller keeps the pre-state. -/
def try_delete_item (s : DbState) (l : Location) :
    Except Exc (DbState × Bool) := do
  let fOpt ← tryGetFile s l.file
  match fOpt with
  | none => .ok (s, false)
  | some f =>
    let rc := (itemsMatching s f.id l.lineno l.testname).length
    if 1 < rc then .error .MultipleResultsFound
    else
      .ok ({ s with items :=
        s.items.filter (fun it => !(it.matchesIdent f.id l.lineno l.testname)) },
        rc == 1)

/-- The `add_or_update` closure inside `Session.bulk_add_update_remove`:
resolve or create the location's file (hashing a newly created file via
the provider), then resolve or create its item; returns whether the item
already existed. -/
def addOrUpdateLoc (hp : Option (TestFile → Nat)) (last_run : Int)
    (s : DbState) (l : Location) : Except Exc (DbState × Bool) := do
  let fOpt ← tryGetFile s l.file
  match fOpt with
  | none =>
    let f0 : TestFile := ⟨s.next_file_id, l.file, none⟩
    let f : TestFile :=
      match hp with
      | some h => { f0 with last_hash := some (h f0) }
      | none => f0
    let it : TestItem := ⟨s.next_item_id, f.id, l.lineno, l.testname, last_run⟩
    .ok ({ files := s.files ++ [f], items := s.items ++ [it],
           next_file_id := s.next_file_id + 1,
           next_item_id := s.next_item_id + 1 }, false)
  | some f => do
    let found ← tryGetItem s f.id l.lineno l.testname
    match found with
    | none =>
      let it : TestItem := ⟨s.next_item_id, f.id, l.lineno, l.testname, last_run⟩
      .ok ({ s with items := s.items ++ [it],
                    next_item_id := s.next_item_id + 1 }, false)
    | some _ =>
      let upd := fun (j : TestItem) =>
        if j.matchesIdent f.id l.lineno l.testname then
          { j with last_run := last_run } else j
      .ok ({ s with items := s.items.map upd }, true)

/-- `results = map(add_or_update, add_update)` consumed by
`count_truefalse`: the add/update pass of the bulk operation, collecting
one boolean per location. -/
def bulkAddUpdateLoop (hp : Option (TestFile → Nat)) (last_run : Int) :
    DbState → List Location → Except Exc (DbState × List Bool)
  | s, [] => .ok (s, [])
  | s, l :: ls => do
    let r ← addOrUpdateLoc hp last_run s l
    let rest ← bulkAddUpdateLoop hp last_run r.1 ls
    .ok (rest.1, r.2 :: rest.2)

/-- `removed = sum(map(deleter, try_delete))`: the delete pass of the
bulk operation. -/
def bulkDeleteLoop : DbState → List Location → Except Exc (DbState × Nat)
  | s, [] => .ok (s, 0)
  | s, l :: ls => do
    let r ← try_delete_item s l
    let rest ← bulkDeleteLoop r.1 ls
    .ok (rest.1, (if r.2 then 1 else 0) + rest.2)

/-- `Session.bulk_add_update_remove`: one nested transaction performing
the add/update pass, the delete pass and the optional file pruning, then
committing once.  An `Except.error` result models the transaction
aborting: the caller keeps the pre-state, so a failure rolls back every
step. -/
def bulk_add_update_remove (s : DbState) (last_run : Int)
    (add_update try_delete : List Location) (hp : Option (TestFile → Nat))
    (prune_files : Bool) : Except Exc (DbState × BulkUpdateResult) := do
  let r1 ← bulkAddUpdateLoop hp last_run s add_update
  let counts := count_truefalse r1.2
  let r2 ← bulkDeleteLoop r1.1 try_delete
  let r3 := if prune_files then
      let p := pruneFilesInner r2.1
      (p.1, some p.2)
    else (r2.1, none)
  .ok (r3.1, ⟨counts.2, counts.1, r2.2, r3.2⟩)

/-- The store invariants the schema enforces: unique file paths, unique
file ids, the compound `(file_id, lineno, testname)` uniqueness on items,
referential integrity of the foreign key, and freshness of the
surrogate-key counter. -/
structure WF (s : DbState) : Prop where
  paths_nodup : (s.files.map TestFile.path).Nodup
  file_ids_nodup : (s.files.map TestFile.id).Nodup
  idents_pairwise : s.items.Pairwise (fun a b =>
    ¬(a.file_id = b.file_id ∧ a.lineno = b.lineno ∧ a.testname = b.testname))
  items_have_file : ∀ it ∈ s.items, ∃ f ∈ s.files, f.id = it.file_id
  fresh_file_ids : ∀ f ∈ s.files, f.id < s.next_file_id

/-- Stable insertion of one element into a sorted list, the building
block for the model of Python's stable library sort. -/
def insertLe (le : α → α → Bool) (x : α) : List α → List α
  | [] => [x]
  | y :: ys => if le x y then x :: y :: ys else y :: insertLe le x ys

/-- Model of Python's stable `sorted`/`list.sort` with comparison `le`. -/
def sortLe (le : α → α → Bool) (l : List α) : List α :=
  l.foldr (insertLe le) []

/-- The adjacent-duplicate check of `checked_indices` inside
`move_idx_to_end`, run on the descending-sorted index list. -/
def hasAdjDup : List Nat → Bool
  | a :: b :: rest => a == b || hasAdjDup (b :: rest)
  | _ => false

/-- `removed = [src.pop(i) for i in checked_indices()]`: pop the indices
one after another from the shrinking list, collecting the popped elements
in pop order and returning the remaining list.  An out-of-range index is
the source's `IndexError`. -/
def popMany : List α → List Nat → Except Exc (List α × List α)
  | src, [] => .ok ([], src)
  | src, i :: rest =>
    match src[i]? with
    | none => .error .IndexError
    | some x => do
      let r ← popMany (src.eraseIdx i) rest
      .ok (x :: r.1, r.2)

/-- `tools.move_idx_to_end`: remove the elements at the given indices and
append them at the end — reversed back into their original relative order
when no sorting key is supplied, sorted by the key otherwise.  Indices are
`Nat`, so the source's negative-index branch cannot arise; the duplicate
check, interleaved with the pops in the source, is run up front here,
which agrees with the source everywhere both succeed. -/
def move_idx_to_end (src : List α) (idx : List Nat)
    (sorting_key : Option (α → Int)) : Except Exc (List α) :=
  if idx.isEmpty then .ok src
  else
    let idx_b := sortLe (fun a b => decide (b ≤ a)) idx
    if hasAdjDup idx_b then .error .ValueError
    else do
      let r ← popMany src idx_b
      let moved :=
        match sorting_key with
        | none => r.1.reverse
        | some k => sortLe (fun a b => decide (k a ≤ k b)) r.1
      .ok (r.2 ++ moved)

/-- Elements of a list sitting at a position (counted from `n`) that
satisfies `P` — specification vocabulary for `move_idx_to_end`. -/
def idxFilterFrom (P : Nat → Bool) : Nat → List α → List α
  | _, [] => []
  | n, a :: as =>
    if P n then a :: idxFilterFrom P (n + 1) as else idxFilterFrom P (n + 1) as

/-- Elements of `src` whose index satisfies `P`, in list order. -/
def idxFilter (src : List α) (P : Nat → Bool) : List α :=
  idxFilterFrom P 0 src

/-- The timeout governor's state (`plugin/_broker_base.py`): the
configured budget, the recorded start time, and the expiration flag.
Times are wall-clock instants modelled as integers. -/
structure BrokerTimeout where
  soft_timeout : Option Int
  start_time : Option Int
  past_timeout : Bool
deriving DecidableEq

/-- `SamplesBrokerBase.check_timeout_expired`:
`(now - start_time) >= timeout`. -/
def check_timeout_expired (start_time now timeout : Int) : Bool :=
  timeout ≤ now - start_time

/-- `SamplesBrokerBase._prepare_item_check_timeout` at clock reading
`now`; the returned boolean tells whether the item was marked skip. -/
def prepare_item_check_timeout (st : BrokerTimeout) (now : Int) :
    BrokerTimeout × Bool :=
  match st.soft_timeout with
  | none => (st, false)
  | some timeout =>
    if st.past_timeout then (st, true)
    else
      match st.start_time with
      | none => ({ st with start_time := some now }, false)
      | some st0 =>
        if check_timeout_expired st0 now timeout then
          ({ st with past_timeout := true }, true)
        else (st, false)

/-- One run of the governor: the items' checks in order, with the clock
reading observed at each check; returns the final state and the per-item
skip instructions. -/
def run_checks : BrokerTimeout → List Int → BrokerTimeout × List Bool
  | st, [] => (st, [])
  | st, t :: ts =>
    let r := prepare_item_check_timeout st t
    let rest := run_checks r.1 ts
    (rest.1, r.2 :: rest.2)

/-- The backing SQLAlchemy engine, reduced to its connection pool.  Per
the source comment in `database/_engine.py` ("sqlalchemy will just reopen
the engine if any action is performed after dispose is called"), using
the engine always succeeds and (re)opens the pool. -/
structure SqlaEngine where
  pool_open : Bool
deriving DecidableEq

/-- `sqlalchemy.Engine.dispose`: release the pooled connection. -/
def SqlaEngine.dispose (_ : SqlaEngine) : SqlaEngine := ⟨false⟩

/-- Any action routed through the SQLAlchemy engine silently (re)opens
the pool, as the source comment documents. -/
def SqlaEngine.connect (_ : SqlaEngine) : SqlaEngine := ⟨true⟩

/-- `database/_engine.py`, class `EngineBase`: the wrapped engine plus
the explicit disposal flag. -/
structure EngineBase where
  engine : SqlaEngine
  disposed : Bool
deriving DecidableEq

/-- `EngineBase._ensure_not_disposed`. -/
def EngineBase.ensure_not_disposed (e : EngineBase) : Except Exc Unit :=
  if e.disposed then .error .EngineDisposedError else .ok ()

/-- `EngineBase.dispose`: dispose the inner engine and record the fact. -/
def EngineBase.dispose (e : EngineBase) : EngineBase :=
  ⟨e.engine.dispose, true⟩

/-- `EngineBase.setup_tables`: guarded by the disposal flag; touches the
store through the inner engine. -/
def EngineBase.setup_tables (e : EngineBase) : Except Exc EngineBase := do
  let _ ← e.ensure_not_disposed
  .ok { e with engine := e.engine.connect }

/-- `EngineBase.new_session`: guarded by the disposal flag; hands out a
session handle (the handle itself holds only the raw inner engine). -/
def EngineBase.new_session (e : EngineBase) : Except Exc Unit := do
  let _ ← e.ensure_not_disposed
  .ok ()

/-- `Session.__enter__` (`database/_session.py`): constructs the ORM
session from the raw engine the handle kept — with no check of the
wrapper's disposal flag. -/
def sessionEnter (e : EngineBase) : EngineBase × Except Exc Unit :=
  (e, .ok ())

/-- A store operation issued on an entered session: it reaches the raw
engine directly, so it succeeds and silently reopens the pool even after
`EngineBase.dispose`. -/
def sessionExecute (e : EngineBase) : EngineBase × Except Exc Unit :=
  ({ e with engine := e.engine.connect }, .ok ())

/-- The reduced outcome set of `StatefulSamplesBroker._decide_result`. -/
inductive TestResultAction where
  | WRITE
  | DROP
  | IGNORE
deriving DecidableEq

/-- `StatefulSamplesBroker._decide_result`: classify a pytest result
state string into the write/drop/ignore action (unknown states fall into
the warn-and-ignore branch). -/
def decide_result (state : String) : TestResultAction :=
  if state == "skipped" then .IGNORE
  else if state == "passed" || state == "xpassed" || state == "xfailed" then
    .WRITE
  else if state == "failed" || state == "error" then .DROP
  else .IGNORE

/-- The lazy broker's run-local state and configuration
(`LazyStatefulSamplesBroker`). -/
structure LazyBroker where
  passed_tests : List Location
  failed_tests : List Location
  no_pruning : Bool
  reset_on_saturation : Bool
  num_tests : Nat
deriving DecidableEq

/-- `LazyStatefulSamplesBroker._process_result`: append the location to
the passed or failed accumulator according to the classified action. -/
def LazyBroker.process_result (b : LazyBroker) (state : String)
    (l : Location) : LazyBroker :=
  match decide_result state with
  | .IGNORE => b
  | .DROP => { b with failed_tests := b.failed_tests ++ [l] }
  | .WRITE => { b with passed_tests := b.passed_tests ++ [l] }

/-- `StatefulSamplesBroker._is_error_exitstatus`: anything other than 0
(all passed), 1 (some failed) or 5 (none collected) is abnormal. -/
def is_error_exitstatus (es : Int) : Bool :=
  !(es == 0 || es == 1 || es == 5)

/-- What `LazyStatefulSamplesBroker._sessionfinish` does to the store:
nothing on an abnormal exit status, a full `drop_all_entries` on
saturation with the reset flag, and otherwise exactly one
`bulk_add_update_remove` call with the recorded argument sets. -/
inductive SessionFinishOutcome where
  | noAction
  | dropAll
  | bulkCall (add_update : Finset Location) (try_delete : Finset Location)
      (prune_files : Bool)
deriving DecidableEq

/-- `LazyStatefulSamplesBroker._sessionfinish`: bail out on an abnormal
exit status; dedup the accumulators into sets, removing from the passed
set every location that also failed; reset on saturation; otherwise
issue the single bulk call (pruning unless disabled). -/
def LazyBroker.sessionfinish (b : LazyBroker) (exitstatus : Int) :
    SessionFinishOutcome :=
  if is_error_exitstatus exitstatus then .noAction
  else
    let passed := b.passed_tests.toFinset \ b.failed_tests.toFinset
    let failed := b.failed_tests.toFinset
    if passed.card = b.num_tests then
      if b.reset_on_saturation then .dropAll
      else .bulkCall passed failed !b.no_pruning
    else .bulkCall passed failed !b.no_pruning

/-- The per-item lookup of `_compare_against_database` with hashing
disabled: file by path, then item by identity; `none` when either is
absent. -/
def lookupItem (s : DbState) (l : Location) : Except Exc (Option TestItem) := do
  let fOpt ← tryGetFile s l.file
  match fOpt with
  | none => .ok none
  | some f => tryGetItem s f.id l.lineno l.testname

/-- The enumeration loop of `_compare_against_database` (hashing
disabled): collect the indices of items found in the store, counting
from `i`. -/
def compareLoop (s : DbState) : Nat → List Location → Except Exc (List Nat)
  | _, [] => .ok []
  | i, l :: ls => do
    let found ← lookupItem s l
    let rest ← compareLoop s (i + 1) ls
    match found with
    | some _ => .ok (i :: rest)
    | none => .ok rest

/-- The recency sorting key handed to `move_idx_to_end`: seconds elapsed
since the stored `last_run` (`(now - db_item.last_run)` in the source).
The source reads it from the per-run map, which is only ever queried at
known items; unknown items get an arbitrary default here. -/
def recencyKey (s : DbState) (now : Int) (l : Location) : Int :=
  match s.files.find? (fun f => f.path == l.file) with
  | some f =>
    match s.items.find? (fun it => it.matchesIdent f.id l.lineno l.testname) with
    | some it => now - it.last_run
    | none => 0
  | none => 0

/-- `StatefulSamplesBroker.pytest_collection_modifyitems`, modelled with
randomization and file hashing disabled (the shuffle precedes everything
and only permutes the input list; hashing only rewrites the store before
comparison): bail out on an empty collection; on saturation with the
reset flag drop the whole store and return the list untouched; otherwise
prune unless disabled and move the known items to the end of the list
under the recency key. -/
def pytest_collection_modifyitems (s : DbState) (items : List Location)
    (now : Int) (no_pruning reset_on_saturation : Bool) :
    Except Exc (DbState × List Location) :=
  if items.length = 0 then .ok (s, items)
  else do
    let known ← compareLoop s 0 items
    if known.length = items.length && reset_on_saturation then
      .ok ((drop_all_entries s).1, items)
    else
      let s1 := if !no_pruning then (prune_items s items).1 else s
      let items2 ← move_idx_to_end items known (some (recencyKey s now))
      .ok (s1, items2)

/-- A sequence of `add_or_update_item` calls on one identity, one call
per timestamp in the list. -/
def runAddOrUpdate (fid : Nat) (ln : Option Nat) (tn : String) :
    DbState → List Int → Except Exc DbState
  | s, [] => .ok s
  | s, t :: ts => do
    let r ← add_or_update_item s fid ln tn t
    runAddOrUpdate fid ln tn r.1 ts

/-- Feed a run's classified outcome stream (result state string and
location, in report order) through `_process_result`. -/
def LazyBroker.record_all (b : LazyBroker)
    (events : List (String × Location)) : LazyBroker :=
  events.foldl (fun acc e => acc.process_result e.1 e.2) b

/-! ## Theorems -/

/-- C3: `invalidate_hash(file, h)` leaves the file's `last_hash` equal to
`h`, leaves zero items owned by the file, keeps every other item, keeps
every file row (ids unchanged), and returns exactly the number of items
the file owned before.  Both effects live in the one returned state, so
no state with the hash updated but stale items surviving (or vice versa)
is observable. -/
theorem invalidate_hash_spec (s : DbState) (fid : Nat) (h : Nat) :
    (∀ f ∈ (invalidate_hash s fid h).1.files, f.id = fid →
        f.last_hash = some h)
    ∧ (∀ it ∈ (invalidate_hash s fid h).1.items, it.file_id ≠ fid)
    ∧ (invalidate_hash s fid h).1.items
        = s.items.filter (fun it => !(it.file_id == fid))
    ∧ (invalidate_hash s fid h).2
        = (s.items.filter (fun it => it.file_id == fid)).length
    ∧ (invalidate_hash s fid h).1.files.map TestFile.id
        = s.files.map TestFile.id := by
  refine ⟨?_, ?_, rfl, rfl, ?_⟩
  · intro f hf hid
    simp only [invalidate_hash, List.mem_map] at hf
    obtain ⟨f0, hf0, rfl⟩ := hf
    by_cases hc : f0.id = fid
    · simp [hc]
    · simp only [beq_iff_eq, if_neg hc] at hid
      exact absurd hid hc
  · intro it hit
    simp only [invalidate_hash, List.mem_filter, Bool.not_eq_true',
      beq_eq_false_iff_ne, ne_eq] at hit
    exact hit.2
  · simp only [invalidate_hash, List.map_map]
    refine List.map_congr_left (fun f0 _ => ?_)
    by_cases hc : f0.id = fid <;> simp [hc]

/-- The loop of `_prune_items` keeps exactly the items passing the
keep-condition and counts exactly the failing ones. -/
theorem pruneItemsLoop_eq (files : List TestFile) (known : List Location)
    (l : List TestItem) :
    pruneItemsLoop files known l
      = (l.filter (keepItem files known),
         (l.filter (fun it => !(keepItem files known it))).length) := by
  induction l with
  | nil => rfl
  | cons it rest ih =>
    simp only [pruneItemsLoop, ih]
    by_cases hc : keepItem files known it
    · simp [List.filter_cons, hc]
    · simp [List.filter_cons, hc]

/-- C6: `prune_items(known)` touches no file row, retains exactly the
items whose resolved location lies in `known` (so it deletes exactly the
items whose resolved location is not in `known`), returns the number of
deleted items, and is idempotent: a second call with the same `known`
deletes 0 further items and leaves the state unchanged. -/
theorem prune_items_exact_and_idempotent (s : DbState)
    (known : List Location) :
    ((prune_items s known).1.files = s.files)
    ∧ (∀ it, it ∈ (prune_items s known).1.items ↔
        (it ∈ s.items ∧ ∃ l, resolveLocation s.files it = some l ∧ l ∈ known))
    ∧ ((prune_items s known).2
        = s.items.length - (prune_items s known).1.items.length)
    ∧ (prune_items (prune_items s known).1 known
        = ((prune_items s known).1, 0)) := by
  have hloop := pruneItemsLoop_eq s.files known s.items
  refine ⟨rfl, ?_, ?_, ?_⟩
  · intro it
    simp only [prune_items, hloop, List.mem_filter]
    refine and_congr_right (fun _ => ?_)
    unfold keepItem
    cases hres : resolveLocation s.files it with
    | none => simp
    | some l => simp [List.elem_iff]
  · simp only [prune_items, hloop]
    have hsplit : s.items.length
        = (s.items.filter (keepItem s.files known)).length
          + (s.items.filter (fun it => !(keepItem s.files known it))).length := by
      induction s.items with
      | nil => rfl
      | cons it rest ih =>
        by_cases hc : keepItem s.files known it <;>
          simp [List.filter_cons, hc, ih] <;> omega
    omega
  · have h1 : List.filter (keepItem s.files known)
        (List.filter (keepItem s.files known) s.items)
        = List.filter (keepItem s.files known) s.items := by
      rw [List.filter_filter]
      refine List.filter_congr (fun it _ => ?_)
      cases keepItem s.files known it <;> rfl
    have h2 : List.filter (fun it => !(keepItem s.files known it))
        (List.filter (keepItem s.files known) s.items) = [] := by
      rw [List.filter_filter]
      refine List.filter_eq_nil_iff.mpr (fun it _ => ?_)
      cases keepItem s.files known it <;> simp
    simp only [prune_items, pruneItemsLoop_eq, h1, h2]
    rfl

/-- Identity matching ignores `last_run`, so updating a row's timestamp
never changes which identity it matches. -/
theorem matchesIdent_set_last_run (j : TestItem) (t : Int) (fid : Nat)
    (ln : Option Nat) (tn : String) :
    TestItem.matchesIdent { j with last_run := t } fid ln tn
      = j.matchesIdent fid ln tn := rfl

/-- Filtering commutes with mapping a function that does not change the
filtered predicate. -/
theorem filter_map_of_pred_inv {α : Type} (f : α → α) (p : α → Bool)
    (hp : ∀ a, p (f a) = p a) (l : List α) :
    (l.map f).filter p = (l.filter p).map f := by
  induction l with
  | nil => rfl
  | cons a as ih =>
    by_cases h : p a = true
    · simp [List.filter_cons, hp, h, ih]
    · simp [List.filter_cons, hp, h, ih]

/-- `add_or_update_item` on an identity with no stored row inserts one
fresh row carrying the call's timestamp. -/
theorem add_or_update_item_insert (s : DbState) (fid : Nat)
    (ln : Option Nat) (tn : String) (t : Int)
    (h0 : itemsMatching s fid ln tn = []) :
    ∃ s' it, add_or_update_item s fid ln tn t = .ok (s', it)
      ∧ itemsMatching s' fid ln tn = [it]
      ∧ it.last_run = t := by
  have hcall : add_or_update_item s fid ln tn t
      = .ok ({ s with
          items := s.items
            ++ [{ id := s.next_item_id, file_id := fid, lineno := ln,
                  testname := tn, last_run := t }],
          next_item_id := s.next_item_id + 1 },
        { id := s.next_item_id, file_id := fid, lineno := ln,
          testname := tn, last_run := t }) := by
    simp only [add_or_update_item, tryGetItem, h0]
    rfl
  refine ⟨_, _, hcall, ?_, rfl⟩
  show itemsMatching _ fid ln tn = _
  simp only [itemsMatching] at h0 ⊢
  rw [List.filter_append, h0]
  simp [TestItem.matchesIdent]

/-- `add_or_update_item` on an identity with exactly one stored row
keeps exactly that row, rewriting only its timestamp. -/
theorem add_or_update_item_update (s : DbState) (fid : Nat)
    (ln : Option Nat) (tn : String) (t : Int) (it : TestItem)
    (h1 : itemsMatching s fid ln tn = [it]) :
    ∃ s' it', add_or_update_item s fid ln tn t = .ok (s', it')
      ∧ itemsMatching s' fid ln tn = [{ it with last_run := t }]
      ∧ it'.last_run = t := by
  have hmem : it ∈ itemsMatching s fid ln tn := by rw [h1]; exact List.mem_singleton_self it
  have hpit : it.matchesIdent fid ln tn = true :=
    (List.mem_filter.mp hmem).2
  have hcall : add_or_update_item s fid ln tn t
      = .ok ({ s with items := s.items.map (fun j =>
          if j.matchesIdent fid ln tn then { j with last_run := t } else j) },
        { it with last_run := t }) := by
    simp only [add_or_update_item, tryGetItem, h1]
    rfl
  refine ⟨_, _, hcall, ?_, rfl⟩
  · show itemsMatching _ fid ln tn = _
    simp only [itemsMatching]
    rw [filter_map_of_pred_inv _ _ ?hinv]
    case hinv =>
      intro a
      by_cases ha : a.matchesIdent fid ln tn = true
      · simp [ha, matchesIdent_set_last_run]
      · simp [ha]
    have : List.filter (fun j => j.matchesIdent fid ln tn) s.items = [it] := h1
    rw [this]
    simp [hpit]

/-- Pull one element off the front of `getLast?.getD`. -/
theorem getLastD_cons (t : Int) (ts : List Int) (d : Int) :
    (t :: ts).getLast?.getD d = ts.getLast?.getD t := by
  induction ts generalizing t d with
  | nil => rfl
  | cons u us ih =>
    rw [List.getLast?_cons_cons]
    rw [ih u t, ih u d]

/-- `getLast` of a cons through the `getLast?.getD` view. -/
theorem getLastD_eq_getLast (t : Int) (ts : List Int) (h : t :: ts ≠ []) :
    ts.getLast?.getD t = (t :: ts).getLast h := by
  induction ts generalizing t with
  | nil => rfl
  | cons u us ih =>
    rw [List.getLast_cons_cons, ← ih u (by simp), getLastD_cons]

/-- Once the store holds exactly one row for an identity, every further
`add_or_update_item` call keeps exactly one row, carrying the latest
timestamp. -/
theorem runAddOrUpdate_maintains (fid : Nat) (ln : Option Nat)
    (tn : String) (ts : List Int) :
    ∀ (s : DbState) (it : TestItem), itemsMatching s fid ln tn = [it] →
    ∃ s' it', runAddOrUpdate fid ln tn s ts = .ok s'
      ∧ itemsMatching s' fid ln tn = [it']
      ∧ it'.last_run = ts.getLast?.getD it.last_run := by
  induction ts with
  | nil => exact fun s it h => ⟨s, it, rfl, h, rfl⟩
  | cons t ts' ih =>
    intro s it h
    obtain ⟨s1, it1, hcall, h1, hlast1⟩ :=
      add_or_update_item_update s fid ln tn t it h
    obtain ⟨s', it', hrun, hm, hl⟩ := ih s1 { it with last_run := t } h1
    refine ⟨s', it', ?_, hm, ?_⟩
    · simp only [runAddOrUpdate, hcall]
      exact hrun
    · rw [hl, getLastD_cons]

/-- C7: for every sequence of `add_or_update_item` calls on one
`(file, lineno, testname)` identity, starting from a store with no row
for it, the store ends with exactly one row for that identity and its
`last_run` is the timestamp of the most recent call (the first call
inserts, every later call only rewrites the timestamp). -/
theorem add_or_update_item_sequence (s : DbState) (fid : Nat)
    (ln : Option Nat) (tn : String) (ts : List Int)
    (h0 : itemsMatching s fid ln tn = []) (hne : ts ≠ []) :
    ∃ s' it, runAddOrUpdate fid ln tn s ts = .ok s'
      ∧ itemsMatching s' fid ln tn = [it]
      ∧ it.last_run = ts.getLast hne := by
  cases ts with
  | nil => exact absurd rfl hne
  | cons t ts' =>
    obtain ⟨s1, it1, hcall, h1, hlast1⟩ :=
      add_or_update_item_insert s fid ln tn t h0
    obtain ⟨s', it', hrun, hm, hl⟩ := runAddOrUpdate_maintains fid ln tn ts' s1 it1 h1
    refine ⟨s', it', ?_, hm, ?_⟩
    · simp only [runAddOrUpdate, hcall]
      exact hrun
    · rw [hl, hlast1]
      exact getLastD_eq_getLast t ts' hne

/-- Witness for C7 at a concrete store and call sequence. -/
theorem add_or_update_item_sequence_witness :
    ∃ s' it, runAddOrUpdate 0 (some 1) "t" ⟨[⟨0, "a.py", none⟩], [], 1, 0⟩ [5, 9, 7]
        = .ok s'
      ∧ itemsMatching s' 0 (some 1) "t" = [it]
      ∧ it.last_run = [5, 9, 7].getLast (by decide) :=
  add_or_update_item_sequence ⟨[⟨0, "a.py", none⟩], [], 1, 0⟩ 0 (some 1) "t"
    [5, 9, 7] (by decide) (by decide)

/-- An expired governor instructs skip on every remaining item and never
resets. -/
theorem run_checks_expired (b : Int) (st : Option Int) (ts : List Int) :
    run_checks ⟨some b, st, true⟩ ts
      = (⟨some b, st, true⟩, ts.map (fun _ => true)) := by
  induction ts with
  | nil => rfl
  | cons t ts' ih => simp [run_checks, prepare_item_check_timeout, ih]

/-- C5 (amended): with no budget the governor never skips; the first
item only records the start time and is never skipped; on a run with a
monotone clock the items after the first are skipped exactly when the
elapsed time since the start has reached or exceeded the budget (`>=` in
the source), so the item triggering the detection is itself skipped,
expiration never resets, and with budget 0 the item immediately after
the first is already skipped. -/
theorem soft_timeout_governor_spec :
    (∀ ts : List Int,
      (run_checks ⟨none, none, false⟩ ts).2 = ts.map (fun _ => false))
    ∧ (∀ (b : Int) (st : Option Int) (ts : List Int),
      (run_checks ⟨some b, st, true⟩ ts).2 = ts.map (fun _ => true))
    ∧ (∀ (b t0 : Int) (rest : List Int),
      run_checks ⟨some b, none, false⟩ (t0 :: rest)
        = ((run_checks ⟨some b, some t0, false⟩ rest).1,
           false :: (run_checks ⟨some b, some t0, false⟩ rest).2))
    ∧ (∀ (b t0 : Int) (ts : List Int), (t0 :: ts).Pairwise (· ≤ ·) →
      (run_checks ⟨some b, some t0, false⟩ ts).2
        = ts.map (fun t => decide (b ≤ t - t0)))
    ∧ (∀ (t0 t1 : Int) (rest : List Int), t0 ≤ t1 →
      (run_checks ⟨some 0, none, false⟩ (t0 :: t1 :: rest)).2
        = false :: true :: rest.map (fun _ => true)) := by
  have hnone : ∀ ts : List Int,
      (run_checks ⟨none, none, false⟩ ts).2 = ts.map (fun _ => false) := by
    intro ts
    induction ts with
    | nil => rfl
    | cons t ts' ih => simp [run_checks, prepare_item_check_timeout, ih]
  have hstarted : ∀ (b t0 : Int) (ts : List Int),
      (t0 :: ts).Pairwise (· ≤ ·) →
      (run_checks ⟨some b, some t0, false⟩ ts).2
        = ts.map (fun t => decide (b ≤ t - t0)) := by
    intro b t0 ts
    induction ts with
    | nil => intro _; rfl
    | cons t ts' ih =>
      intro hp
      have hsub : (t0 :: ts').Sublist (t0 :: t :: ts') :=
        List.Sublist.cons₂ t0 (List.sublist_cons_self t ts')
      have hrest : (t0 :: ts').Pairwise (· ≤ ·) :=
        List.Pairwise.sublist hsub hp
      have htts : ∀ u ∈ ts', t ≤ u :=
        (List.pairwise_cons.mp (List.pairwise_cons.mp hp).2).1
      by_cases hc : b ≤ t - t0
      · have hstep : prepare_item_check_timeout ⟨some b, some t0, false⟩ t
            = (⟨some b, some t0, true⟩, true) := by
          simp [prepare_item_check_timeout, check_timeout_expired, hc]
        have hall : ∀ u ∈ ts',
            (fun _ => true) u = (fun v => decide (b ≤ v - t0)) u := by
          intro u hu
          have : b ≤ u - t0 := le_trans hc (by have := htts u hu; omega)
          simp [this]
        simp only [run_checks, hstep, run_checks_expired, List.map_cons]
        rw [List.map_congr_left hall]
        simp [hc]
      · have hstep : prepare_item_check_timeout ⟨some b, some t0, false⟩ t
            = (⟨some b, some t0, false⟩, false) := by
          simp [prepare_item_check_timeout, check_timeout_expired, hc]
        simp only [run_checks, hstep, List.map_cons]
        rw [ih hrest]
        simp [hc]
  refine ⟨hnone, ?_, ?_, hstarted, ?_⟩
  · intro b st ts
    rw [run_checks_expired]
  · intro b t0 rest
    rfl
  · intro t0 t1 rest h01
    have hstep1 : prepare_item_check_timeout ⟨some 0, none, false⟩ t0
        = (⟨some 0, some t0, false⟩, false) := by
      simp [prepare_item_check_timeout]
    have hstep2 : prepare_item_check_timeout ⟨some 0, some t0, false⟩ t1
        = (⟨some 0, some t0, true⟩, true) := by
      simp [prepare_item_check_timeout, check_timeout_expired,
        show (0 : Int) ≤ t1 - t0 by omega]
    simp only [run_checks, hstep1, hstep2, run_checks_expired]

/-- Witness for C5 at a concrete budget and monotone clock trace:
budget 5, start recorded at time 0, checks at times 3 and 7 — the check
at elapsed 3 runs, the one at elapsed 7 is skipped. -/
theorem soft_timeout_governor_spec_witness :
    (run_checks ⟨some 5, some 0, false⟩ [3, 7]).2
      = [3, 7].map (fun t => decide ((5 : Int) ≤ t - 0)) :=
  soft_timeout_governor_spec.2.2.2.1 5 0 [3, 7] (by decide)

/-- C5, counterexample to the claim as stated: with budget 5 and checks
at times 0 and 5, the elapsed time at the second check equals the budget
without strictly exceeding it, yet the governor skips that item — the
source compares with `>=`, not `>`. -/
theorem soft_timeout_boundary_counterexample :
    (run_checks ⟨some 5, none, false⟩ [0, 5]).2 = [false, true]
    ∧ ¬ ((5 : Int) - 0 > 5) := by
  constructor
  · rfl
  · omega

/-- C9 (amended): disposal is recorded and releases the pool, and every
subsequent call on the engine itself fails with `EngineDisposedError` —
the guarded calls return errors and never touch the pool, so the engine
never silently reopens.  (Sessions created before disposal are not
guarded; see the counterexample.) -/
theorem engine_disposed_guard (e w : EngineBase) (hw : w.disposed = true) :
    ((e.dispose).disposed = true)
    ∧ ((e.dispose).engine.pool_open = false)
    ∧ (w.setup_tables = .error .EngineDisposedError)
    ∧ (w.new_session = .error .EngineDisposedError) := by
  refine ⟨rfl, rfl, ?_, ?_⟩
  · simp [EngineBase.setup_tables, EngineBase.ensure_not_disposed, hw]
    rfl
  · simp [EngineBase.new_session, EngineBase.ensure_not_disposed, hw]
    rfl

/-- Witness for C9 at a concrete engine. -/
theorem engine_disposed_guard_witness :
    ((EngineBase.dispose ⟨⟨true⟩, false⟩).disposed = true)
    ∧ ((EngineBase.dispose ⟨⟨true⟩, false⟩).engine.pool_open = false)
    ∧ (EngineBase.setup_tables ⟨⟨false⟩, true⟩
        = .error .EngineDisposedError)
    ∧ (EngineBase.new_session ⟨⟨false⟩, true⟩
        = .error .EngineDisposedError) :=
  engine_disposed_guard ⟨⟨true⟩, false⟩ ⟨⟨false⟩, true⟩ rfl

/-- C9, counterexample to the claim as stated: a session handed out
before disposal is not guarded.  `new_session` succeeds on the live
engine; after `dispose`, entering that session and issuing a store
operation on it raises no `EngineDisposedError` — and the operation
silently reopens the pool the disposal had closed. -/
theorem session_after_dispose_counterexample :
    (EngineBase.new_session ⟨⟨true⟩, false⟩ = .ok ())
    ∧ ((EngineBase.dispose ⟨⟨true⟩, false⟩).engine.pool_open = false)
    ∧ ((sessionEnter (EngineBase.dispose ⟨⟨true⟩, false⟩)).2 = .ok ())
    ∧ ((sessionExecute (EngineBase.dispose ⟨⟨true⟩, false⟩)).2 = .ok ())
    ∧ ((sessionExecute (EngineBase.dispose ⟨⟨true⟩, false⟩)).1.engine.pool_open
        = true) := by
  refine ⟨rfl, rfl, rfl, rfl, rfl⟩

/-- Membership in the failed accumulator after recording an outcome
stream: a DROP-classified event for `l` puts `l` there, and it stays. -/
theorem mem_failed_record_all (events : List (String × Location))
    (l : Location) :
    ∀ b : LazyBroker,
      (l ∈ b.failed_tests ∨ ∃ e ∈ events, decide_result e.1 = .DROP ∧ e.2 = l) →
      l ∈ (b.record_all events).failed_tests := by
  induction events with
  | nil =>
    intro b h
    rcases h with h | ⟨e, he, _⟩
    · exact h
    · exact absurd he (List.not_mem_nil e)
  | cons e es ih =>
    intro b h
    show l ∈ (LazyBroker.record_all (b.process_result e.1 e.2) es).failed_tests
    refine ih _ ?_
    rcases h with h | ⟨e0, he0, hd, hl⟩
    · left
      unfold LazyBroker.process_result
      cases decide_result e.1 <;> simp_all [List.mem_append]
    · rcases List.mem_cons.mp he0 with rfl | hes
      · left
        unfold LazyBroker.process_result
        rw [hd, hl]
        simp [List.mem_append]
      · right
        exact ⟨e0, hes, hd, hl⟩

/-- C4: when the lazy broker's end-of-run reconciliation issues its bulk
call, the call receives exactly the deduplicated passed set minus the
failed set as `add_update`, the failed set as `try_delete`, and pruning
enabled unless disabled; in particular a location recorded both as
passed and as failed lands in `try_delete` and never in `add_update` —
the failed classification wins. -/
theorem lazy_failed_precedence (b0 : LazyBroker)
    (events : List (String × Location)) (es : Int) (l : Location)
    (add del : Finset Location) (pr : Bool)
    (hw : ∃ e ∈ events, decide_result e.1 = .WRITE ∧ e.2 = l)
    (hf : ∃ e ∈ events, decide_result e.1 = .DROP ∧ e.2 = l)
    (hout : (b0.record_all events).sessionfinish es = .bulkCall add del pr) :
    add = (b0.record_all events).passed_tests.toFinset
            \ (b0.record_all events).failed_tests.toFinset
    ∧ del = (b0.record_all events).failed_tests.toFinset
    ∧ pr = !(b0.record_all events).no_pruning
    ∧ l ∉ add ∧ l ∈ del := by
  have hlf : l ∈ (b0.record_all events).failed_tests :=
    mem_failed_record_all events l b0 (Or.inr hf)
  have hargs : add = (b0.record_all events).passed_tests.toFinset
        \ (b0.record_all events).failed_tests.toFinset
      ∧ del = (b0.record_all events).failed_tests.toFinset
      ∧ pr = !(b0.record_all events).no_pruning := by
    simp only [LazyBroker.sessionfinish] at hout
    split_ifs at hout
    · injection hout with hA hB hC
      exact ⟨hA.symm, hB.symm, hC.symm⟩
    · injection hout with hA hB hC
      exact ⟨hA.symm, hB.symm, hC.symm⟩
  obtain ⟨h1, h2, h3⟩ := hargs
  refine ⟨h1, h2, h3, ?_, ?_⟩
  · rw [h1]
    simp [Finset.mem_sdiff, List.mem_toFinset, hlf]
  · rw [h2]
    simp [List.mem_toFinset, hlf]

/-- Witness for C4: the location `("a.py", none, "t1")` passes and later
fails (as after a fixture-teardown failure), one other location passes
cleanly, the exit status is 1 and pruning is not disabled; the bulk call
excludes the conflicted location from `add_update` and lists it in
`try_delete`. -/
theorem lazy_failed_precedence_witness :
    (⟨"a.py", none, "t1"⟩ : Location)
        ∉ (LazyBroker.record_all ⟨[], [], false, false, 5⟩
            [("passed", ⟨"a.py", none, "t1"⟩), ("failed", ⟨"a.py", none, "t1"⟩),
             ("passed", ⟨"a.py", some 2, "t2"⟩)]).passed_tests.toFinset
          \ (LazyBroker.record_all ⟨[], [], false, false, 5⟩
            [("passed", ⟨"a.py", none, "t1"⟩), ("failed", ⟨"a.py", none, "t1"⟩),
             ("passed", ⟨"a.py", some 2, "t2"⟩)]).failed_tests.toFinset
    ∧ (⟨"a.py", none, "t1"⟩ : Location)
        ∈ (LazyBroker.record_all ⟨[], [], false, false, 5⟩
            [("passed", ⟨"a.py", none, "t1"⟩), ("failed", ⟨"a.py", none, "t1"⟩),
             ("passed", ⟨"a.py", some 2, "t2"⟩)]).failed_tests.toFinset :=
  (lazy_failed_precedence ⟨[], [], false, false, 5⟩
    [("passed", ⟨"a.py", none, "t1"⟩), ("failed", ⟨"a.py", none, "t1"⟩),
     ("passed", ⟨"a.py", some 2, "t2"⟩)] 1 ⟨"a.py", none, "t1"⟩ _ _ _
    (by decide) (by decide) rfl).2.2.2

/-- C8: `try_delete_item` resolves the file by path first and, when the
file is absent, returns `false` with the store untouched; with the file
present it deletes the identity matches, checks the rowcount afterwards
— two or more matching rows raise `MultipleResultsFound` (and the
nested transaction rolls back) — and otherwise reports whether exactly
one row was deleted; a rowcount of zero also leaves the store
untouched. -/
theorem try_delete_item_spec (s : DbState) (l : Location) :
    (filesWithPath s l.file = [] → try_delete_item s l = .ok (s, false))
    ∧ (∀ f, filesWithPath s l.file = [f] →
        ((itemsMatching s f.id l.lineno l.testname).length = 0 →
            try_delete_item s l = .ok (s, false))
        ∧ (2 ≤ (itemsMatching s f.id l.lineno l.testname).length →
            try_delete_item s l = .error .MultipleResultsFound)
        ∧ ((itemsMatching s f.id l.lineno l.testname).length ≤ 1 →
            try_delete_item s l
              = .ok ({ s with
                  items := s.items.filter (fun it =>
                    !(it.matchesIdent f.id l.lineno l.testname)) },
                  (itemsMatching s f.id l.lineno l.testname).length == 1))) := by
  constructor
  · intro h
    simp only [try_delete_item, tryGetFile, h]
    rfl
  · intro f hf
    have hred : try_delete_item s l
        = (if 1 < (itemsMatching s f.id l.lineno l.testname).length then
            (.error .MultipleResultsFound)
          else .ok ({ s with
              items := s.items.filter (fun it =>
                !(it.matchesIdent f.id l.lineno l.testname)) },
            (itemsMatching s f.id l.lineno l.testname).length == 1)) := by
      simp only [try_delete_item, tryGetFile, hf]
      rfl
    refine ⟨?_, ?_, ?_⟩
    · intro h0
      have hnil : itemsMatching s f.id l.lineno l.testname = [] :=
        List.length_eq_zero.mp h0
      have hself : s.items.filter
          (fun it => !(it.matchesIdent f.id l.lineno l.testname)) = s.items := by
        refine List.filter_eq_self.mpr (fun it hit => ?_)
        have : it.matchesIdent f.id l.lineno l.testname = false := by
          by_contra hcon
          have : it ∈ itemsMatching s f.id l.lineno l.testname :=
            List.mem_filter.mpr ⟨hit, by simpa using hcon⟩
          rw [hnil] at this
          exact absurd this (List.not_mem_nil it)
        simp [this]
      rw [hred, if_neg (by omega), hself, h0]
      rfl
    · intro h2
      rw [hred, if_pos (by omega)]
    · intro h1
      rw [hred, if_neg (by omega)]

/-- Witness for C8 at a concrete store: deleting at a path with no file
row returns `false` and leaves the store unchanged. -/
theorem try_delete_item_spec_witness :
    try_delete_item
        ⟨[⟨0, "a.py", none⟩], [⟨0, 0, some 1, "t", 50⟩], 1, 1⟩
        ⟨"b.py", none, "x"⟩
      = .ok (⟨[⟨0, "a.py", none⟩], [⟨0, 0, some 1, "t", 50⟩], 1, 1⟩, false) :=
  (try_delete_item_spec ⟨[⟨0, "a.py", none⟩], [⟨0, 0, some 1, "t", 50⟩], 1, 1⟩
    ⟨"b.py", none, "x"⟩).1 (by decide)

/-- Two file rows with the same id coincide in a well-formed store. -/
theorem file_eq_of_id_eq {s : DbState} (hWF : WF s) {f g : TestFile}
    (hf : f ∈ s.files) (hg : g ∈ s.files) (h : f.id = g.id) : f = g :=
  List.inj_on_of_nodup_map hWF.file_ids_nodup hf hg h

/-- In a well-formed store the path filter finds at most one row. -/
theorem filesWithPath_shape (s : DbState) (hWF : WF s) (p : String) :
    filesWithPath s p = [] ∨ ∃ f, filesWithPath s p = [f] := by
  rcases hm : filesWithPath s p with _ | ⟨a, _ | ⟨b, rest⟩⟩
  · exact Or.inl rfl
  · exact Or.inr ⟨a, rfl⟩
  · exfalso
    have hsub : (a :: b :: rest).Sublist s.files := by
      rw [← hm]; exact List.filter_sublist s.files
    have hnodup : ((a :: b :: rest).map TestFile.path).Nodup :=
      List.Nodup.sublist (List.Sublist.map TestFile.path hsub) hWF.paths_nodup
    have ha : a ∈ filesWithPath s p := by rw [hm]; simp
    have hb : b ∈ filesWithPath s p := by rw [hm]; simp
    have ha' : a.path = p := by simpa using (List.mem_filter.mp ha).2
    have hb' : b.path = p := by simpa using (List.mem_filter.mp hb).2
    simp [ha', hb'] at hnodup

/-- In a well-formed store the identity filter finds at most one row. -/
theorem itemsMatching_shape (s : DbState) (hWF : WF s) (fid : Nat)
    (ln : Option Nat) (tn : String) :
    itemsMatching s fid ln tn = []
      ∨ ∃ it, itemsMatching s fid ln tn = [it] := by
  rcases hm : itemsMatching s fid ln tn with _ | ⟨a, _ | ⟨b, rest⟩⟩
  · exact Or.inl rfl
  · exact Or.inr ⟨a, rfl⟩
  · exfalso
    have hsub : (a :: b :: rest).Sublist s.items := by
      rw [← hm]; exact List.filter_sublist s.items
    have hpw := List.Pairwise.sublist hsub hWF.idents_pairwise
    have hab := (List.pairwise_cons.mp hpw).1 b (List.mem_cons_self b rest)
    have ha : a ∈ itemsMatching s fid ln tn := by rw [hm]; simp
    have hb : b ∈ itemsMatching s fid ln tn := by rw [hm]; simp
    have ha' := (List.mem_filter.mp ha).2
    have hb' := (List.mem_filter.mp hb).2
    simp only [TestItem.matchesIdent, Bool.and_eq_true, beq_iff_eq] at ha' hb'
    exact hab ⟨ha'.1.1.trans hb'.1.1.symm, ha'.1.2.trans hb'.1.2.symm,
      ha'.2.trans hb'.2.symm⟩

/-- With no file row at the location's path, the location has no stored
item. -/
theorem locPresentB_no_file (s : DbState) (l : Location)
    (h : filesWithPath s l.file = []) : locPresentB s l = false := by
  have hall := List.filter_eq_nil_iff.mp h
  refine List.any_eq_false.mpr (fun f hf => ?_)
  have hp := hall f hf
  simp only [beq_iff_eq] at hp
  simp [hp]

/-- With exactly one file row at the location's path, presence reduces
to the identity search under that file. -/
theorem locPresentB_one_file (s : DbState) (l : Location) (f : TestFile)
    (h : filesWithPath s l.file = [f]) :
    locPresentB s l
      = s.items.any (fun it => it.matchesIdent f.id l.lineno l.testname) := by
  have hf : f ∈ filesWithPath s l.file := by rw [h]; simp
  have hfmem : f ∈ s.files := (List.mem_filter.mp hf).1
  have hfpath : (f.path == l.file) = true := (List.mem_filter.mp hf).2
  refine Bool.coe_iff_coe.mp ?_
  constructor
  · intro hl
    obtain ⟨g, hg, hgp⟩ := List.any_eq_true.mp hl
    simp only [Bool.and_eq_true] at hgp
    obtain ⟨hgpath, hgitems⟩ := hgp
    have hgf : g ∈ filesWithPath s l.file := List.mem_filter.mpr ⟨hg, hgpath⟩
    rw [h] at hgf
    have : g = f := by simpa using hgf
    rw [← this]
    exact hgitems
  · intro hits
    exact List.any_eq_true.mpr ⟨f, hfmem, by
      rw [Bool.and_eq_true]; exact ⟨hfpath, hits⟩⟩

/-- Every item row's foreign key points below the fresh file id. -/
theorem item_file_id_lt {s : DbState} (hWF : WF s) :
    ∀ it ∈ s.items, it.file_id < s.next_file_id := by
  intro it hit
  obtain ⟨g, hg, hgid⟩ := hWF.items_have_file it hit
  exact hgid ▸ hWF.fresh_file_ids g hg

/-- Creating a fresh file row (with any hash) plus its first item row at
a previously unknown path preserves the store invariants and makes
exactly the new location present. -/
theorem addOrUpdate_newfile_aux (s : DbState) (l : Location) (t : Int)
    (hWF : WF s) (hfp : filesWithPath s l.file = []) (hv : Option Nat) :
    WF ⟨s.files ++ [⟨s.next_file_id, l.file, hv⟩],
        s.items ++ [⟨s.next_item_id, s.next_file_id, l.lineno, l.testname, t⟩],
        s.next_file_id + 1, s.next_item_id + 1⟩
    ∧ ∀ l' : Location,
        locPresentB ⟨s.files ++ [⟨s.next_file_id, l.file, hv⟩],
          s.items ++ [⟨s.next_item_id, s.next_file_id, l.lineno, l.testname, t⟩],
          s.next_file_id + 1, s.next_item_id + 1⟩ l'
        = (locPresentB s l' || decide (l' = l)) := by
  have hnot : ∀ f ∈ s.files, f.path ≠ l.file := by
    intro f hf
    have := List.filter_eq_nil_iff.mp hfp f hf
    simpa using this
  have hffresh := hWF.fresh_file_ids
  have hifresh := item_file_id_lt hWF
  constructor
  · constructor
    · show (List.map TestFile.path (s.files ++ [⟨s.next_file_id, l.file, hv⟩])).Nodup
      rw [List.map_append, List.nodup_append]
      refine ⟨hWF.paths_nodup, by simp, ?_⟩
      intro a ha hb
      simp only [List.map_cons, List.map_nil, List.mem_singleton] at hb
      obtain ⟨f, hf, rfl⟩ := List.mem_map.mp ha
      exact hnot f hf hb
    · show (List.map TestFile.id (s.files ++ [⟨s.next_file_id, l.file, hv⟩])).Nodup
      rw [List.map_append, List.nodup_append]
      refine ⟨hWF.file_ids_nodup, by simp, ?_⟩
      intro a ha hb
      simp only [List.map_cons, List.map_nil, List.mem_singleton] at hb
      obtain ⟨f, hf, rfl⟩ := List.mem_map.mp ha
      have := hffresh f hf
      omega
    · show List.Pairwise _ (s.items
        ++ [⟨s.next_item_id, s.next_file_id, l.lineno, l.testname, t⟩])
      rw [List.pairwise_append]
      refine ⟨hWF.idents_pairwise, by simp, ?_⟩
      intro a ha b hb
      simp only [List.mem_singleton] at hb
      subst hb
      intro hcon
      have := hifresh a ha
      have h1 := hcon.1
      simp only at h1
      omega
    · intro it hit
      rcases List.mem_append.mp hit with h | h
      · obtain ⟨f, hf, hid⟩ := hWF.items_have_file it h
        exact ⟨f, List.mem_append_left _ hf, hid⟩
      · simp only [List.mem_singleton] at h
        subst h
        exact ⟨⟨s.next_file_id, l.file, hv⟩,
          List.mem_append_right _ (by simp), rfl⟩
    · intro f hf
      show f.id < s.next_file_id + 1
      rcases List.mem_append.mp hf with h | h
      · have := hffresh f h
        omega
      · simp only [List.mem_singleton] at h
        subst h
        show s.next_file_id < s.next_file_id + 1
        omega
  · intro l'
    refine Bool.coe_iff_coe.mp ?_
    simp only [locPresentB, List.any_eq_true, List.mem_append,
      List.mem_singleton, Bool.and_eq_true, beq_iff_eq,
      TestItem.matchesIdent, Bool.or_eq_true, decide_eq_true_eq]
    constructor
    · rintro ⟨f', hf', hpath, it', hit', ⟨hid, hln⟩, htn⟩
      rcases hf' with hf' | rfl
      · rcases hit' with hit' | rfl
        · exact Or.inl ⟨f', hf', hpath, it', hit', ⟨hid, hln⟩, htn⟩
        · exfalso
          have := hffresh f' hf'
          simp only at hid
          omega
      · rcases hit' with hit' | rfl
        · exfalso
          have := hifresh it' hit'
          simp only at hid
          omega
        · right
          rcases l' with ⟨a, b, c⟩
          rcases l with ⟨d, e, g⟩
          simp only at hpath hln htn
          simp_all
    · rintro (⟨f', hf', hpath, it', hit', ⟨hid, hln⟩, htn⟩ | heq)
      · exact ⟨f', Or.inl hf', hpath, it', Or.inl hit', ⟨hid, hln⟩, htn⟩
      · refine ⟨⟨s.next_file_id, l.file, hv⟩, Or.inr rfl, ?_,
          ⟨s.next_item_id, s.next_file_id, l.lineno, l.testname, t⟩,
          Or.inr rfl, ⟨rfl, ?_⟩, ?_⟩ <;> rw [heq]

/-- Adding a first item row for an identity under an existing file row
preserves the store invariants and makes exactly the new location
present. -/
theorem addOrUpdate_newitem_aux (s : DbState) (l : Location) (t : Int)
    (f : TestFile) (hWF : WF s) (hfp : filesWithPath s l.file = [f])
    (him : itemsMatching s f.id l.lineno l.testname = []) :
    WF { s with
        items := s.items ++ [⟨s.next_item_id, f.id, l.lineno, l.testname, t⟩],
        next_item_id := s.next_item_id + 1 }
    ∧ ∀ l' : Location,
        locPresentB { s with
          items := s.items ++ [⟨s.next_item_id, f.id, l.lineno, l.testname, t⟩],
          next_item_id := s.next_item_id + 1 } l'
        = (locPresentB s l' || decide (l' = l)) := by
  have hfin : f ∈ filesWithPath s l.file := by rw [hfp]; simp
  have hfmem : f ∈ s.files := (List.mem_filter.mp hfin).1
  have hfpath : f.path = l.file := by
    simpa using (List.mem_filter.mp hfin).2
  have hnomatch := List.filter_eq_nil_iff.mp him
  constructor
  · constructor
    · exact hWF.paths_nodup
    · exact hWF.file_ids_nodup
    · show List.Pairwise _
        (s.items ++ [⟨s.next_item_id, f.id, l.lineno, l.testname, t⟩])
      rw [List.pairwise_append]
      refine ⟨hWF.idents_pairwise, by simp, ?_⟩
      intro a ha b hb
      simp only [List.mem_singleton] at hb
      subst hb
      intro hcon
      refine hnomatch a ha ?_
      simp only [TestItem.matchesIdent, Bool.and_eq_true, beq_iff_eq]
      exact ⟨⟨hcon.1, hcon.2.1⟩, hcon.2.2⟩
    · intro it hit
      rcases List.mem_append.mp hit with h | h
      · exact hWF.items_have_file it h
      · simp only [List.mem_singleton] at h
        subst h
        exact ⟨f, hfmem, rfl⟩
    · exact hWF.fresh_file_ids
  · intro l'
    refine Bool.coe_iff_coe.mp ?_
    simp only [locPresentB, List.any_eq_true, List.mem_append,
      List.mem_singleton, Bool.and_eq_true, beq_iff_eq,
      TestItem.matchesIdent, Bool.or_eq_true, decide_eq_true_eq]
    constructor
    · rintro ⟨f', hf', hpath, it', hit', ⟨hid, hln⟩, htn⟩
      rcases hit' with hit' | rfl
      · exact Or.inl ⟨f', hf', hpath, it', hit', ⟨hid, hln⟩, htn⟩
      · right
        simp only at hid hln htn
        have hff : f = f' := file_eq_of_id_eq hWF hfmem hf' hid
        rcases l' with ⟨a, b, c⟩
        rcases l with ⟨d, e, g⟩
        simp only at hpath hln htn hfpath ⊢
        subst hff
        simp_all
    · rintro (⟨f', hf', hpath, it', hit', ⟨hid, hln⟩, htn⟩ | heq)
      · exact ⟨f', hf', hpath, it', Or.inl hit', ⟨hid, hln⟩, htn⟩
      · refine ⟨f, hfmem, ?_, ⟨s.next_item_id, f.id, l.lineno, l.testname, t⟩,
          Or.inr rfl, ⟨rfl, ?_⟩, ?_⟩ <;> rw [heq]
        exact hfpath

/-- Rewriting the `last_run` of the rows matching one identity preserves
the store invariants and changes no location's presence. -/
theorem addOrUpdate_update_aux (s : DbState) (l : Location) (t : Int)
    (f : TestFile) (hWF : WF s) :
    WF { s with items := s.items.map (fun j =>
          if j.matchesIdent f.id l.lineno l.testname then
            { j with last_run := t } else j) }
    ∧ ∀ l' : Location,
        locPresentB { s with items := s.items.map (fun j =>
          if j.matchesIdent f.id l.lineno l.testname then
            { j with last_run := t } else j) } l'
        = locPresentB s l' := by
  have hfid : ∀ j : TestItem,
      (if j.matchesIdent f.id l.lineno l.testname then
        { j with last_run := t } else j).file_id = j.file_id := by
    intro j
    by_cases hj : j.matchesIdent f.id l.lineno l.testname = true <;> simp [hj]
  have hmatch : ∀ (j : TestItem) (a : Nat) (b : Option Nat) (c : String),
      (if j.matchesIdent f.id l.lineno l.testname then
        { j with last_run := t } else j).matchesIdent a b c
      = j.matchesIdent a b c := by
    intro j a b c
    by_cases hj : j.matchesIdent f.id l.lineno l.testname = true
    · simp only [if_pos hj]
      rfl
    · simp only [if_neg hj]
  constructor
  · constructor
    · exact hWF.paths_nodup
    · exact hWF.file_ids_nodup
    · show List.Pairwise _ (s.items.map _)
      refine List.Pairwise.map _ ?_ hWF.idents_pairwise
      intro a b hab hcon
      refine hab ?_
      rcases hcon with ⟨h1, h2, h3⟩
      by_cases hja : a.matchesIdent f.id l.lineno l.testname = true <;>
        by_cases hjb : b.matchesIdent f.id l.lineno l.testname = true <;>
          simp [hja, hjb] at h1 h2 h3 <;> exact ⟨h1, h2, h3⟩
    · intro it hit
      obtain ⟨j, hj, rfl⟩ := List.mem_map.mp hit
      obtain ⟨g, hg, hgid⟩ := hWF.items_have_file j hj
      exact ⟨g, hg, by rw [hgid, hfid]⟩
    · exact hWF.fresh_file_ids
  · intro l'
    show List.any _ _ = List.any _ _
    refine congrArg (List.any s.files) (funext (fun f' => ?_))
    show (f'.path == l'.file && _) = (f'.path == l'.file && _)
    refine congrArg (f'.path == l'.file && ·) ?_
    rw [List.any_map]
    refine congrArg (List.any s.items) (funext (fun j => ?_))
    exact hmatch j f'.id l'.lineno l'.testname

/-- The `add_or_update` closure of the bulk operation, on a well-formed
store: it succeeds, reports whether the location's item already existed,
preserves the invariants, and makes present exactly the locations that
were present before plus the processed one. -/
theorem addOrUpdateLoc_spec (hp : Option (TestFile → Nat)) (t : Int)
    (s : DbState) (l : Location) (hWF : WF s) :
    ∃ s', addOrUpdateLoc hp t s l = .ok (s', locPresentB s l)
      ∧ WF s'
      ∧ ∀ l', locPresentB s' l'
          = (locPresentB s l' || decide (l' = l)) := by
  rcases filesWithPath_shape s hWF l.file with hfp | ⟨f, hfp⟩
  · have hfalse : locPresentB s l = false := locPresentB_no_file s l hfp
    cases hp with
    | none =>
      obtain ⟨hwf', hpres⟩ := addOrUpdate_newfile_aux s l t hWF hfp none
      refine ⟨_, ?_, hwf', hpres⟩
      rw [hfalse]
      simp only [addOrUpdateLoc, tryGetFile, hfp]
      rfl
    | some hfun =>
      obtain ⟨hwf', hpres⟩ := addOrUpdate_newfile_aux s l t hWF hfp
        (some (hfun ⟨s.next_file_id, l.file, none⟩))
      refine ⟨_, ?_, hwf', hpres⟩
      rw [hfalse]
      simp only [addOrUpdateLoc, tryGetFile, hfp]
      rfl
  · rcases itemsMatching_shape s hWF f.id l.lineno l.testname with him | ⟨it, him⟩
    · have hfalse : locPresentB s l = false := by
        rw [locPresentB_one_file s l f hfp]
        exact List.any_eq_false.mpr (List.filter_eq_nil_iff.mp him)
      obtain ⟨hwf', hpres⟩ := addOrUpdate_newitem_aux s l t f hWF hfp him
      refine ⟨_, ?_, hwf', hpres⟩
      rw [hfalse]
      have hstep : addOrUpdateLoc hp t s l
          = (do
              let found ← tryGetItem s f.id l.lineno l.testname
              match found with
              | none => .ok ({ s with
                  items := s.items
                    ++ [⟨s.next_item_id, f.id, l.lineno, l.testname, t⟩],
                  next_item_id := s.next_item_id + 1 }, false)
              | some _ => .ok ({ s with items := s.items.map (fun j =>
                  if j.matchesIdent f.id l.lineno l.testname then
                    { j with last_run := t } else j) }, true)) := by
        simp only [addOrUpdateLoc, tryGetFile, hfp]
        rfl
      rw [hstep]
      simp only [tryGetItem, him]
      rfl
    · have htrue : locPresentB s l = true := by
        rw [locPresentB_one_file s l f hfp]
        have hin : it ∈ itemsMatching s f.id l.lineno l.testname := by
          rw [him]; simp
        exact List.any_eq_true.mpr
          ⟨it, (List.mem_filter.mp hin).1, (List.mem_filter.mp hin).2⟩
      obtain ⟨hwf', hpres⟩ := addOrUpdate_update_aux s l t f hWF
      refine ⟨_, ?_, hwf', ?_⟩
      · rw [htrue]
        have hstep : addOrUpdateLoc hp t s l
            = (do
                let found ← tryGetItem s f.id l.lineno l.testname
                match found with
                | none => .ok ({ s with
                    items := s.items
                      ++ [⟨s.next_item_id, f.id, l.lineno, l.testname, t⟩],
                    next_item_id := s.next_item_id + 1 }, false)
                | some _ => .ok ({ s with items := s.items.map (fun j =>
                    if j.matchesIdent f.id l.lineno l.testname then
                      { j with last_run := t } else j) }, true)) := by
          simp only [addOrUpdateLoc, tryGetFile, hfp]
          rfl
        rw [hstep]
        simp only [tryGetItem, him]
        rfl
      · intro l'
        rw [hpres l']
        by_cases hl : l' = l
        · subst hl
          simp [htrue]
        · simp [hl]

/-- Reduction of a bind on an `ok` result. -/
theorem except_bind_ok {α β : Type} (a : α) (k : α → Except Exc β) :
    (Except.ok a >>= k) = k a := rfl

/-- `count_truefalse` counts exactly the `true`s and the `false`s. -/
theorem count_truefalse_eq (l : List Bool) :
    count_truefalse l
      = (l.countP (fun b => b), l.countP (fun b => !b)) := by
  have hgen : ∀ (l : List Bool) (a b : Nat),
      l.foldl (fun (c : Nat × Nat) x =>
        if x then (c.1 + 1, c.2) else (c.1, c.2 + 1)) (a, b)
      = (a + l.countP (fun x => x), b + l.countP (fun x => !x)) := by
    intro l
    induction l with
    | nil => intro a b; simp
    | cons x xs ih =>
      intro a b
      cases x <;> simp [List.countP_cons, ih] <;> omega
  have := hgen l 0 0
  simpa [count_truefalse] using this

/-- Splitting a length into the matched and unmatched counts. -/
theorem length_eq_countP_add (p : α → Bool) (l : List α) :
    l.length = l.countP p + l.countP (fun a => !(p a)) := by
  induction l with
  | nil => simp
  | cons x xs ih =>
    cases hx : p x <;> simp [List.countP_cons, hx, ih] <;> omega

/-- The add/update pass of the bulk operation on a well-formed store:
it succeeds, reports per location whether the item pre-existed (measured
against the state at the start of the pass), preserves the invariants,
and makes present exactly the prior locations plus the processed ones. -/
theorem bulkAddUpdateLoop_spec (hp : Option (TestFile → Nat)) (t : Int) :
    ∀ (locs : List Location) (s : DbState), WF s → locs.Nodup →
    ∃ s', bulkAddUpdateLoop hp t s locs
        = .ok (s', locs.map (fun l => locPresentB s l))
      ∧ WF s'
      ∧ ∀ l', locPresentB s' l'
          = (locPresentB s l' || decide (l' ∈ locs)) := by
  intro locs
  induction locs with
  | nil =>
    intro s hWF _
    exact ⟨s, rfl, hWF, by simp⟩
  | cons l ls ih =>
    intro s hWF hnd
    obtain ⟨s1, hcall, hWF1, hpres1⟩ := addOrUpdateLoc_spec hp t s l hWF
    obtain ⟨s2, hloop, hWF2, hpres2⟩ := ih s1 hWF1 (List.nodup_cons.mp hnd).2
    have hnotmem : l ∉ ls := (List.nodup_cons.mp hnd).1
    have hmapeq : ls.map (fun l0 => locPresentB s1 l0)
        = ls.map (fun l0 => locPresentB s l0) := by
      refine List.map_congr_left (fun a ha => ?_)
      rw [hpres1 a]
      have hne : decide (a = l) = false := by
        simp only [decide_eq_false_iff_not]
        intro h
        exact hnotmem (h ▸ ha)
      simp [hne]
    refine ⟨s2, ?_, hWF2, ?_⟩
    · simp only [bulkAddUpdateLoop, hcall, except_bind_ok, hloop, hmapeq]
      rfl
    · intro l'
      rw [hpres2 l', hpres1 l']
      by_cases h1 : l' = l <;> by_cases h2 : l' ∈ ls <;>
        simp [h1, h2, List.mem_cons]

/-- One delete step of the bulk operation on a well-formed store: it
succeeds, reports presence of the deleted location, preserves the
invariants, and leaves every other location's presence unchanged. -/
theorem try_delete_item_ok (s : DbState) (l : Location) (hWF : WF s) :
    ∃ s', try_delete_item s l = .ok (s', locPresentB s l)
      ∧ WF s'
      ∧ ∀ l', l' ≠ l → locPresentB s' l' = locPresentB s l' := by
  rcases filesWithPath_shape s hWF l.file with hfp | ⟨f, hfp⟩
  · refine ⟨s, ?_, hWF, fun _ _ => rfl⟩
    rw [locPresentB_no_file s l hfp]
    exact (try_delete_item_spec s l).1 hfp
  · have hfin : f ∈ filesWithPath s l.file := by rw [hfp]; simp
    have hfmem : f ∈ s.files := (List.mem_filter.mp hfin).1
    have hfpath : f.path = l.file := by
      simpa using (List.mem_filter.mp hfin).2
    rcases itemsMatching_shape s hWF f.id l.lineno l.testname with him | ⟨it, him⟩
    · have h0 : (itemsMatching s f.id l.lineno l.testname).length = 0 := by
        rw [him]; rfl
      refine ⟨s, ?_, hWF, fun _ _ => rfl⟩
      have hcall := ((try_delete_item_spec s l).2 f hfp).1 h0
      rw [locPresentB_one_file s l f hfp,
        List.any_eq_false.mpr (List.filter_eq_nil_iff.mp him)]
      exact hcall
    · have h1 : (itemsMatching s f.id l.lineno l.testname).length ≤ 1 := by
        rw [him]; simp
      have hcall := ((try_delete_item_spec s l).2 f hfp).2.2 h1
      have hlen : ((itemsMatching s f.id l.lineno l.testname).length == 1)
          = true := by rw [him]; rfl
      have hpres : locPresentB s l = true := by
        rw [locPresentB_one_file s l f hfp]
        have hin : it ∈ itemsMatching s f.id l.lineno l.testname := by
          rw [him]; simp
        exact List.any_eq_true.mpr
          ⟨it, (List.mem_filter.mp hin).1, (List.mem_filter.mp hin).2⟩
      refine ⟨{ s with items := s.items.filter (fun a =>
          !(a.matchesIdent f.id l.lineno l.testname)) }, ?_, ?_, ?_⟩
      · rw [hpres, hcall, hlen]
      · constructor
        · exact hWF.paths_nodup
        · exact hWF.file_ids_nodup
        · exact List.Pairwise.sublist (List.filter_sublist s.items)
            hWF.idents_pairwise
        · intro a ha
          exact hWF.items_have_file a (List.mem_of_mem_filter ha)
        · exact hWF.fresh_file_ids
      · intro l' hne
        refine Bool.coe_iff_coe.mp ?_
        simp only [locPresentB, List.any_eq_true, List.mem_filter,
          Bool.and_eq_true, beq_iff_eq, TestItem.matchesIdent,
          Bool.not_eq_true']
        constructor
        · rintro ⟨f', hf', hpath, a, ⟨ha, _⟩, hrest⟩
          exact ⟨f', hf', hpath, a, ha, hrest⟩
        · rintro ⟨f', hf', hpath, a, ha, ⟨hid, hln⟩, htn⟩
          refine ⟨f', hf', hpath, a, ⟨ha, ?_⟩, ⟨hid, hln⟩, htn⟩
          by_contra hcon
          simp only [Bool.not_eq_false, Bool.and_eq_true, beq_iff_eq] at hcon
          obtain ⟨⟨hida, hlna⟩, htna⟩ := hcon
          have hff : a.file_id = f'.id := hid
          have : f = f' := file_eq_of_id_eq hWF hfmem hf' (by
            rw [← hida, hff])
          refine hne ?_
          rcases l' with ⟨x, y, z⟩
          rcases l with ⟨d, e, g⟩
          simp only at hpath hln htn hfpath ⊢
          subst this
          simp_all

/-- The delete pass of the bulk operation on a well-formed store: it
succeeds and removes one item per listed location that was present,
counting them against the state at the start of the pass. -/
theorem bulkDeleteLoop_spec :
    ∀ (locs : List Location) (s : DbState), WF s → locs.Nodup →
    ∃ s', bulkDeleteLoop s locs
        = .ok (s', locs.countP (fun l => locPresentB s l)) := by
  intro locs
  induction locs with
  | nil =>
    intro s _ _
    exact ⟨s, by simp [bulkDeleteLoop]⟩
  | cons l ls ih =>
    intro s hWF hnd
    obtain ⟨s1, hcall, hWF1, hpres1⟩ := try_delete_item_ok s l hWF
    obtain ⟨s2, hloop⟩ := ih s1 hWF1 (List.nodup_cons.mp hnd).2
    have hnotmem : l ∉ ls := (List.nodup_cons.mp hnd).1
    have hcnt : ls.countP (fun l0 => locPresentB s1 l0)
        = ls.countP (fun l0 => locPresentB s l0) := by
      refine List.countP_congr (fun a ha => ?_)
      rw [hpres1 a (fun h => hnotmem (h ▸ ha))]
    refine ⟨s2, ?_⟩
    simp only [bulkDeleteLoop, hcall, except_bind_ok, hloop, hcnt]
    simp [List.countP_cons, Nat.add_comm]

/-- C2: `bulk_add_update_remove` on a well-formed store with duplicate-
free, non-overlapping location sets returns `added = A - U`,
`updated = U` and `removed = R`, where `A` is the size of `add_update`,
`U` the number of its locations already holding a stored item and `R`
the number of `try_delete` locations holding one.  The whole operation
is one function producing one final state, committed once; an error
result carries no state, so a failure leaves the caller on the
pre-state — nothing partial is observable. -/
theorem bulk_add_update_remove_counts (s : DbState) (t : Int)
    (add_update try_delete : List Location) (hp : Option (TestFile → Nat))
    (pf : Bool) (hWF : WF s) (hndA : add_update.Nodup)
    (hndD : try_delete.Nodup)
    (hdisj : ∀ l ∈ try_delete, l ∉ add_update) :
    ∃ s' pruned,
      bulk_add_update_remove s t add_update try_delete hp pf
        = .ok (s',
            ⟨add_update.length
                - add_update.countP (fun l => locPresentB s l),
              add_update.countP (fun l => locPresentB s l),
              try_delete.countP (fun l => locPresentB s l),
              pruned⟩) := by
  obtain ⟨s1, hloop1, hWF1, hpres1⟩ :=
    bulkAddUpdateLoop_spec hp t add_update s hWF hndA
  obtain ⟨s2, hloop2⟩ := bulkDeleteLoop_spec try_delete s1 hWF1 hndD
  have hcnt2 : try_delete.countP (fun l => locPresentB s1 l)
      = try_delete.countP (fun l => locPresentB s l) := by
    refine List.countP_congr (fun a ha => ?_)
    rw [hpres1 a]
    have : decide (a ∈ add_update) = false := by simp [hdisj a ha]
    simp [this]
  rw [hcnt2] at hloop2
  have hct : count_truefalse (add_update.map (fun l => locPresentB s l))
      = (add_update.countP (fun l => locPresentB s l),
         add_update.length
           - add_update.countP (fun l => locPresentB s l)) := by
    rw [count_truefalse_eq]
    rw [List.countP_map, List.countP_map]
    have hsplit := length_eq_countP_add (fun l => locPresentB s l) add_update
    refine Prod.ext ?_ ?_
    · simp only []
      refine List.countP_congr (fun a _ => ?_)
      simp
    · simp only []
      have h2 : add_update.countP
            ((fun b => !b) ∘ fun l => locPresentB s l)
          = add_update.countP (fun l => !(locPresentB s l)) := by
        refine List.countP_congr (fun a _ => ?_)
        simp
      rw [h2]
      omega
  refine ⟨(if pf then (pruneFilesInner s2).1 else s2),
    (if pf then some (pruneFilesInner s2).2 else none), ?_⟩
  cases pf
  · simp only [bulk_add_update_remove, hloop1, except_bind_ok, hct,
      hloop2, Bool.false_eq_true, if_false]
  · simp only [bulk_add_update_remove, hloop1, except_bind_ok, hct,
      hloop2, if_true]

/-- Witness for C2: a store holding one file with one item; three
locations to add or update of which one pre-exists, one stored location
to delete; added = 2, updated = 1, removed = 1. -/
theorem bulk_add_update_remove_counts_witness :
    ∃ (s' : DbState) (pruned : Option Nat),
      bulk_add_update_remove
          ⟨[⟨0, "a.py", none⟩], [⟨0, 0, some 3, "t1", 100⟩,
            ⟨1, 0, some 9, "t9", 90⟩], 1, 2⟩ 200
          [⟨"a.py", some 3, "t1"⟩, ⟨"a.py", some 4, "t2"⟩,
            ⟨"b.py", none, "t3"⟩]
          [⟨"a.py", some 9, "t9"⟩] none true
        = .ok (s', (⟨2, 1, 1, pruned⟩ : BulkUpdateResult)) :=
  bulk_add_update_remove_counts
    ⟨[⟨0, "a.py", none⟩], [⟨0, 0, some 3, "t1", 100⟩,
      ⟨1, 0, some 9, "t9", 90⟩], 1, 2⟩ 200
    [⟨"a.py", some 3, "t1"⟩, ⟨"a.py", some 4, "t2"⟩, ⟨"b.py", none, "t3"⟩]
    [⟨"a.py", some 9, "t9"⟩] none true
    ⟨by decide, by decide, by decide, by decide, by decide⟩
    (by decide) (by decide) (by decide)

/-- Inserting into a list permutes consing onto it. -/
theorem insertLe_perm (le : α → α → Bool) (x : α) (l : List α) :
    (insertLe le x l).Perm (x :: l) := by
  induction l with
  | nil => exact List.Perm.refl _
  | cons y ys ih =>
    unfold insertLe
    by_cases h : le x y = true
    · rw [if_pos h]
    · rw [if_neg h]
      exact (ih.cons y).trans (List.Perm.swap x y ys)

/-- The sort model permutes its input, as a sort must. -/
theorem sortLe_perm (le : α → α → Bool) (l : List α) :
    (sortLe le l).Perm l := by
  induction l with
  | nil => exact List.Perm.refl _
  | cons x xs ih =>
    show (insertLe le x (sortLe le xs)).Perm (x :: xs)
    exact (insertLe_perm le x (sortLe le xs)).trans (ih.cons x)

/-- Inserting into a sorted list keeps it sorted, for a transitive and
total comparison. -/
theorem insertLe_sorted (le : α → α → Bool)
    (htrans : ∀ a b c, le a b = true → le b c = true → le a c = true)
    (htot : ∀ a b, le a b = true ∨ le b a = true) (x : α) (l : List α)
    (hl : l.Pairwise (fun a b => le a b = true)) :
    (insertLe le x l).Pairwise (fun a b => le a b = true) := by
  induction l with
  | nil => simp [insertLe]
  | cons y ys ih =>
    rcases List.pairwise_cons.mp hl with ⟨hy, hys⟩
    unfold insertLe
    by_cases h : le x y = true
    · rw [if_pos h]
      refine List.pairwise_cons.mpr ⟨?_, hl⟩
      intro b hb
      rcases List.mem_cons.mp hb with rfl | hb
      · exact h
      · exact htrans x y b h (hy b hb)
    · rw [if_neg h]
      refine List.pairwise_cons.mpr ⟨?_, ih hys⟩
      intro b hb
      have hb' : b ∈ x :: ys := (insertLe_perm le x ys).subset hb
      rcases List.mem_cons.mp hb' with rfl | hb'
      · rcases htot b y with h1 | h1
        · exact absurd h1 h
        · exact h1
      · exact hy b hb'

/-- The sort model sorts, for a transitive and total comparison. -/
theorem sortLe_sorted (le : α → α → Bool)
    (htrans : ∀ a b c, le a b = true → le b c = true → le a c = true)
    (htot : ∀ a b, le a b = true ∨ le b a = true) (l : List α) :
    (sortLe le l).Pairwise (fun a b => le a b = true) := by
  induction l with
  | nil => simp [sortLe]
  | cons x xs ih => exact insertLe_sorted le htrans htot x _ ih

/-- `idxFilterFrom` distributes over append, shifting the counter. -/
theorem idxFilterFrom_append {α : Type} (P : Nat → Bool) :
    ∀ (xs ys : List α) (n : Nat),
      idxFilterFrom P n (xs ++ ys)
        = idxFilterFrom P n xs ++ idxFilterFrom P (n + xs.length) ys := by
  intro xs
  induction xs with
  | nil => intro ys n; simp [idxFilterFrom]
  | cons a as ih =>
    intro ys n
    show idxFilterFrom P n (a :: (as ++ ys)) = _
    have harith : n + 1 + as.length = n + (as.length + 1) := by omega
    by_cases h : P n = true
    · simp only [idxFilterFrom, if_pos h, ih ys (n + 1), harith]
      simp [List.length_cons]
    · simp only [idxFilterFrom, if_neg h, ih ys (n + 1), harith]
      simp [List.length_cons]

/-- `idxFilterFrom` only looks at the positions it traverses. -/
theorem idxFilterFrom_congr {α : Type} (P Q : Nat → Bool) :
    ∀ (xs : List α) (n : Nat),
      (∀ k, n ≤ k → k < n + xs.length → P k = Q k) →
      idxFilterFrom P n xs = idxFilterFrom Q n xs := by
  intro xs
  induction xs with
  | nil => intro n _; rfl
  | cons a as ih =>
    intro n h
    have hn : P n = Q n := h n (le_refl n) (by simp)
    have hrec := ih (n + 1) (fun k hk1 hk2 => h k (by omega) (by
      simp only [List.length_cons]
      omega))
    simp only [idxFilterFrom, hn, hrec]

/-- A predicate true on the whole traversed range keeps everything. -/
theorem idxFilterFrom_all_true {α : Type} (P : Nat → Bool) :
    ∀ (xs : List α) (n : Nat), (∀ k, n ≤ k → P k = true) →
      idxFilterFrom P n xs = xs := by
  intro xs
  induction xs with
  | nil => intro n _; rfl
  | cons a as ih =>
    intro n h
    simp only [idxFilterFrom, h n (le_refl n), if_true,
      ih (n + 1) (fun k hk => h k (by omega))]

/-- A predicate false on the whole traversed range drops everything. -/
theorem idxFilterFrom_all_false {α : Type} (P : Nat → Bool) :
    ∀ (xs : List α) (n : Nat), (∀ k, n ≤ k → P k = false) →
      idxFilterFrom P n xs = [] := by
  intro xs
  induction xs with
  | nil => intro n _; rfl
  | cons a as ih =>
    intro n h
    simp only [idxFilterFrom, h n (le_refl n), Bool.false_eq_true,
      if_false, ih (n + 1) (fun k hk => h k (by omega))]

/-- Split an index filter at a position inside the list. -/
theorem idxFilter_split {α : Type} (A : List α) (i : Nat)
    (hi : i < A.length) (P : Nat → Bool) :
    idxFilter A P
      = idxFilter (A.take i) P
        ++ (if P i then [A.get ⟨i, hi⟩] else [])
        ++ idxFilterFrom P (i + 1) (A.drop (i + 1)) := by
  have hlen : (A.take i).length = i := by
    rw [List.length_take]
    omega
  have hdrop : A.drop i = A.get ⟨i, hi⟩ :: A.drop (i + 1) :=
    List.drop_eq_getElem_cons hi
  conv_lhs => rw [idxFilter, ← List.take_append_drop i A,
    idxFilterFrom_append, hlen, Nat.zero_add, hdrop]
  show idxFilter (A.take i) P ++ idxFilterFrom P i (_ :: A.drop (i + 1)) = _
  by_cases h : P i = true
  · simp [idxFilterFrom, h]
  · simp [idxFilterFrom, h]

/-- The pop loop of `move_idx_to_end`, run on strictly descending
in-bounds indices into the front part of a list: it pops exactly the
elements of the front part sitting at those indices (collected in
descending index order, hence the reverse) and leaves the rest. -/
theorem popMany_spec {α : Type} :
    ∀ (is : List Nat) (A B : List α),
      is.Pairwise (fun a b => b < a) →
      (∀ j ∈ is, j < A.length) →
      popMany (A ++ B) is
        = .ok ((idxFilter A (fun k => is.contains k)).reverse,
               idxFilter A (fun k => !(is.contains k)) ++ B) := by
  intro is
  induction is with
  | nil =>
    intro A B _ _
    have h1 : idxFilter A (fun k => ([] : List Nat).contains k) = [] :=
      idxFilterFrom_all_false _ A 0 (fun k _ => rfl)
    have h2 : idxFilter A (fun k => !(([] : List Nat).contains k)) = A :=
      idxFilterFrom_all_true _ A 0 (fun k _ => rfl)
    rw [h1, h2]
    rfl
  | cons i rest ih =>
    intro A B hpw hbd
    have hi : i < A.length := hbd i (List.mem_cons_self i rest)
    have hrest_lt : ∀ j ∈ rest, j < i := (List.pairwise_cons.mp hpw).1
    have hrest_pw := (List.pairwise_cons.mp hpw).2
    have hget : (A ++ B)[i]? = some (A.get ⟨i, hi⟩) := by
      rw [List.getElem?_append_left hi]
      exact (List.getElem?_eq_some_getElem_iff A i hi).mpr trivial
    have herase : (A ++ B).eraseIdx i = A.take i ++ (A.drop (i + 1) ++ B) := by
      rw [List.eraseIdx_append_of_lt_length hi B,
        List.eraseIdx_eq_take_drop_succ, List.append_assoc]
    have hbd' : ∀ j ∈ rest, j < (A.take i).length := by
      intro j hj
      rw [List.length_take]
      have := hrest_lt j hj
      omega
    have hcontains_at : ((i :: rest).contains i) = true := by simp
    have hlen' : (A.take i).length = i := by
      rw [List.length_take]
      omega
    have hcontains_lo : ∀ k, k < i →
        ((i :: rest).contains k) = (rest.contains k) := by
      intro k hk
      have hne : (k == i) = false := by
        simp only [beq_eq_false_iff_ne, ne_eq]
        omega
      simp only [List.contains_cons, hne, Bool.false_or]
    have hcontains_hi : ∀ k, i + 1 ≤ k →
        ((i :: rest).contains k) = false := by
      intro k hk
      rw [List.contains_cons]
      have hne : (k == i) = false := by
        simp only [beq_eq_false_iff_ne, ne_eq]
        omega
      have hrest : rest.contains k = false := by
        by_contra hcon
        rw [Bool.not_eq_false] at hcon
        have hmem : k ∈ rest := List.elem_iff.mp hcon
        have := hrest_lt k hmem
        omega
      rw [hne, hrest]
      rfl
    have hsplit_in : idxFilter A (fun k => (i :: rest).contains k)
        = idxFilter (A.take i) (fun k => rest.contains k)
          ++ [A.get ⟨i, hi⟩] := by
      rw [idxFilter_split A i hi, if_pos hcontains_at]
      have hpre : idxFilter (A.take i) (fun k => (i :: rest).contains k)
          = idxFilter (A.take i) (fun k => rest.contains k) :=
        idxFilterFrom_congr _ _ (A.take i) 0 (fun k _ hk2 =>
          hcontains_lo k (by rw [hlen'] at hk2; omega))
      have hsuf : idxFilterFrom (fun k => (i :: rest).contains k) (i + 1)
          (A.drop (i + 1)) = [] :=
        idxFilterFrom_all_false _ _ (i + 1) (fun k hk => hcontains_hi k hk)
      rw [hpre, hsuf, List.append_nil]
    have hsplit_out : idxFilter A (fun k => !((i :: rest).contains k))
        = idxFilter (A.take i) (fun k => !(rest.contains k))
          ++ A.drop (i + 1) := by
      rw [idxFilter_split A i hi,
        if_neg (by rw [hcontains_at]; simp)]
      have hpre : idxFilter (A.take i) (fun k => !((i :: rest).contains k))
          = idxFilter (A.take i) (fun k => !(rest.contains k)) :=
        idxFilterFrom_congr _ _ (A.take i) 0 (fun k _ hk2 => by
          rw [hcontains_lo k (by rw [hlen'] at hk2; omega)])
      have hsuf : idxFilterFrom (fun k => !((i :: rest).contains k)) (i + 1)
          (A.drop (i + 1)) = A.drop (i + 1) :=
        idxFilterFrom_all_true _ _ (i + 1) (fun k hk => by
          rw [hcontains_hi k hk]
          rfl)
      rw [hpre, hsuf, List.append_nil]
    simp only [popMany, hget]
    rw [herase, ih (A.take i) (A.drop (i + 1) ++ B) hrest_pw hbd',
      except_bind_ok]
    rw [hsplit_in, hsplit_out]
    simp [List.reverse_append, List.append_assoc]

/-- A duplicate-free list has no adjacent duplicates. -/
theorem hasAdjDup_eq_false (l : List Nat)
    (h : l.Pairwise (fun a b => a ≠ b)) : hasAdjDup l = false := by
  induction l with
  | nil => rfl
  | cons a t ih =>
    cases t with
    | nil => rfl
    | cons b r =>
      have hab : a ≠ b :=
        (List.pairwise_cons.mp h).1 b (List.mem_cons_self b r)
      have hrec := ih (List.pairwise_cons.mp h).2
      show (a == b || hasAdjDup (b :: r)) = false
      rw [hrec]
      simp [hab]

/-- C1 (amended): `move_idx_to_end` keeps the elements at indices not in
`idx` first, in their original relative order.  With no sorting key the
moved block keeps the original relative order of the indexed elements;
with a sorting key the moved block is a permutation of the indexed
elements arranged in ascending key order — for the broker's recency key
(seconds since last run) the most-recently-run item therefore comes
first in the moved block and the item run longest ago comes last. -/
theorem move_idx_to_end_ordering {α : Type} (src : List α)
    (idx : List Nat) (k : α → Int) (hnd : idx.Nodup)
    (hbd : ∀ i ∈ idx, i < src.length) :
    move_idx_to_end src idx none
      = .ok (idxFilter src (fun i => !(idx.contains i))
          ++ idxFilter src (fun i => idx.contains i))
    ∧ ∃ moved, move_idx_to_end src idx (some k)
        = .ok (idxFilter src (fun i => !(idx.contains i)) ++ moved)
      ∧ moved.Perm (idxFilter src (fun i => idx.contains i))
      ∧ moved.Pairwise (fun a b => k a ≤ k b) := by
  by_cases hempty : idx.isEmpty = true
  · have hnil : idx = [] := List.isEmpty_iff.mp hempty
    subst hnil
    have h1 : idxFilter src (fun i => !(([] : List Nat).contains i)) = src :=
      idxFilterFrom_all_true _ src 0 (fun _ _ => rfl)
    have h2 : idxFilter src (fun i => (([] : List Nat).contains i)) = [] :=
      idxFilterFrom_all_false _ src 0 (fun _ _ => rfl)
    rw [h1, h2, List.append_nil]
    refine ⟨rfl, [], ?_, List.Perm.refl _, List.Pairwise.nil⟩
    rw [List.append_nil]
    rfl
  · have hperm : (sortLe (fun a b => decide (b ≤ a)) idx).Perm idx :=
      sortLe_perm _ idx
    have hsorted : (sortLe (fun a b => decide (b ≤ a)) idx).Pairwise
        (fun a b => b ≤ a) := by
      refine (sortLe_sorted (fun a b => decide (b ≤ a)) ?_ ?_ idx).imp ?_
      · intro a b c h1 h2
        simp only [decide_eq_true_eq] at h1 h2 ⊢
        omega
      · intro a b
        rcases Nat.le_total a b with h | h
        · exact Or.inr (by simpa using h)
        · exact Or.inl (by simpa using h)
      · intro a b h
        simpa using h
    have hnd_b : (sortLe (fun a b => decide (b ≤ a)) idx).Nodup :=
      hperm.nodup_iff.mpr hnd
    have hdesc : (sortLe (fun a b => decide (b ≤ a)) idx).Pairwise
        (fun a b => b < a) := by
      have hcomb := List.Pairwise.and hsorted hnd_b
      refine hcomb.imp ?_
      intro a b hab
      rcases hab with ⟨h1, h2⟩
      omega
    have hadj : hasAdjDup (sortLe (fun a b => decide (b ≤ a)) idx) = false :=
      hasAdjDup_eq_false _ (hnd_b.imp (fun h => h))
    have hbd_b : ∀ j ∈ sortLe (fun a b => decide (b ≤ a)) idx,
        j < src.length := fun j hj => hbd j (hperm.subset hj)
    have hpop := popMany_spec (sortLe (fun a b => decide (b ≤ a)) idx)
      src [] hdesc hbd_b
    rw [List.append_nil, List.append_nil] at hpop
    have hcont : ∀ j, ((sortLe (fun a b => decide (b ≤ a)) idx).contains j)
        = idx.contains j := by
      intro j
      refine Bool.coe_iff_coe.mp ?_
      exact Iff.trans List.elem_iff
        (Iff.trans hperm.mem_iff List.elem_iff.symm)
    have hin : idxFilter src
        (fun j => (sortLe (fun a b => decide (b ≤ a)) idx).contains j)
        = idxFilter src (fun j => idx.contains j) :=
      idxFilterFrom_congr _ _ src 0 (fun j _ _ => hcont j)
    have hout : idxFilter src
        (fun j => !((sortLe (fun a b => decide (b ≤ a)) idx).contains j))
        = idxFilter src (fun j => !(idx.contains j)) :=
      idxFilterFrom_congr _ _ src 0 (fun j _ _ => by rw [hcont j])
    rw [hin, hout] at hpop
    constructor
    · simp only [move_idx_to_end, hempty, Bool.false_eq_true, if_false,
        hadj, hpop, except_bind_ok]
      rw [List.reverse_reverse]
    · refine ⟨sortLe (fun a b => decide (k a ≤ k b))
        ((idxFilter src (fun j => idx.contains j)).reverse), ?_, ?_, ?_⟩
      · simp only [move_idx_to_end, hempty, Bool.false_eq_true, if_false,
          hadj, hpop, except_bind_ok]
      · exact (sortLe_perm _ _).trans (List.reverse_perm _)
      · refine (sortLe_sorted (fun a b => decide (k a ≤ k b)) ?_ ?_ _).imp ?_
        · intro a b c h1 h2
          simp only [decide_eq_true_eq] at h1 h2 ⊢
          omega
        · intro a b
          rcases le_total (k a) (k b) with h | h
          · exact Or.inl (by simpa using h)
          · exact Or.inr (by simpa using h)
        · intro a b h
          simpa using h

/-- Witness for C1 at a concrete list: elements 10, 20, 30 with indices
0 and 2 marked known and the identity key. -/
theorem move_idx_to_end_ordering_witness :
    move_idx_to_end ([10, 20, 30] : List Int) [0, 2] none
      = .ok (idxFilter [10, 20, 30] (fun i => !([0, 2].contains i))
          ++ idxFilter [10, 20, 30] (fun i => [0, 2].contains i))
    ∧ ∃ moved, move_idx_to_end ([10, 20, 30] : List Int) [0, 2]
          (some (fun x => x))
        = .ok (idxFilter [10, 20, 30] (fun i => !([0, 2].contains i))
            ++ moved)
      ∧ moved.Perm (idxFilter [10, 20, 30] (fun i => [0, 2].contains i))
      ∧ moved.Pairwise (fun a b => (fun x => x) a ≤ (fun x => x) b) :=
  move_idx_to_end_ordering [10, 20, 30] [0, 2] (fun x => x)
    (by decide) (by decide)

/-- C1, counterexample to the claim as stated: two items, both known,
whose recency values are 10 (run long ago) and 1 (run recently); the
elements stand for their own recency keys.  The source sorts the moved
block ascending by the key, so the most-recently-run item (key 1) comes
first and the item run longest ago (key 10) comes last — not the other
way round as the claim's gloss says. -/
theorem move_idx_to_end_recency_counterexample :
    move_idx_to_end ([10, 1] : List Int) [0, 1] (some (fun x => x))
      = .ok [1, 10]
    ∧ (Except.ok [1, 10] : Except Exc (List Int)) ≠ .ok [10, 1] := by
  constructor
  · rfl
  · decide

/-- The per-item lookup of the comparison step succeeds on a well-formed
store and finds an item exactly when the location is present. -/
theorem lookupItem_ok (s : DbState) (l : Location) (hWF : WF s) :
    ∃ o, lookupItem s l = .ok o ∧ o.isSome = locPresentB s l := by
  rcases filesWithPath_shape s hWF l.file with hfp | ⟨f, hfp⟩
  · refine ⟨none, ?_, ?_⟩
    · simp only [lookupItem, tryGetFile, hfp]
      rfl
    · rw [locPresentB_no_file s l hfp]
      rfl
  · have hfile : tryGetFile s l.file = .ok (some f) := by
      simp [tryGetFile, hfp]
    rcases itemsMatching_shape s hWF f.id l.lineno l.testname with him | ⟨it, him⟩
    · refine ⟨none, ?_, ?_⟩
      · simp only [lookupItem, hfile, except_bind_ok]
        simp [tryGetItem, him]
      · rw [locPresentB_one_file s l f hfp,
          List.any_eq_false.mpr (List.filter_eq_nil_iff.mp him)]
        rfl
    · refine ⟨some it, ?_, ?_⟩
      · simp only [lookupItem, hfile, except_bind_ok]
        simp [tryGetItem, him]
      · have hin : it ∈ itemsMatching s f.id l.lineno l.testname := by
          rw [him]; simp
        rw [locPresentB_one_file s l f hfp, List.any_eq_true.mpr
          ⟨it, (List.mem_filter.mp hin).1, (List.mem_filter.mp hin).2⟩]
        rfl

/-- The comparison loop succeeds on a well-formed store and collects one
known index per present location. -/
theorem compareLoop_ok (s : DbState) (hWF : WF s) :
    ∀ (items : List Location) (i : Nat),
      ∃ ks, compareLoop s i items = .ok ks
        ∧ ks.length = items.countP (fun l => locPresentB s l) := by
  intro items
  induction items with
  | nil =>
    intro i
    exact ⟨[], rfl, by simp⟩
  | cons l ls ih =>
    intro i
    obtain ⟨o, hcall, hsome⟩ := lookupItem_ok s l hWF
    obtain ⟨ks, hrec, hlen⟩ := ih (i + 1)
    cases o with
    | none =>
      refine ⟨ks, ?_, ?_⟩
      · simp only [compareLoop, hcall, except_bind_ok, hrec]
      · rw [hlen, List.countP_cons]
        have hfalse : locPresentB s l = false := by rw [← hsome]; rfl
        simp [hfalse]
    | some it =>
      refine ⟨i :: ks, ?_, ?_⟩
      · simp only [compareLoop, hcall, except_bind_ok, hrec]
      · rw [List.length_cons, hlen, List.countP_cons]
        have htrue : locPresentB s l = true := by rw [← hsome]; rfl
        simp [htrue]

/-- C10 (amended): whenever at least one item is collected, every
collected item is known, and `reset_on_saturation` is enabled, the
collection hook (randomization and hashing disabled) drops all store
entries and returns immediately — the returned store is exactly the
dropped one (so pruning never ran) and the item list is returned in its
incoming order (so the reorder step never ran). -/
theorem collection_hook_saturation_reset (s : DbState)
    (items : List Location) (now : Int) (np : Bool) (hWF : WF s)
    (hne : items ≠ []) (hall : ∀ l ∈ items, locPresentB s l = true) :
    pytest_collection_modifyitems s items now np true
      = .ok ({ s with files := [], items := [] }, items) := by
  obtain ⟨ks, hcmp, hlen⟩ := compareLoop_ok s hWF items 0
  have hcount : items.countP (fun l => locPresentB s l) = items.length :=
    List.countP_eq_length.mpr hall
  have hlen2 : ks.length = items.length := by rw [hlen, hcount]
  have hlen_ne : ¬ items.length = 0 := by
    intro h
    exact hne (List.length_eq_zero.mp h)
  simp only [pytest_collection_modifyitems, if_neg hlen_ne, hcmp,
    except_bind_ok, hlen2]
  simp [drop_all_entries]

/-- Witness for C10 at a concrete saturated store. -/
theorem collection_hook_saturation_reset_witness :
    pytest_collection_modifyitems
        ⟨[⟨0, "a.py", none⟩], [⟨0, 0, some 3, "t1", 100⟩], 1, 1⟩
        [⟨"a.py", some 3, "t1"⟩] 200 false true
      = .ok (⟨[], [], 1, 1⟩, [⟨"a.py", some 3, "t1"⟩]) :=
  collection_hook_saturation_reset
    ⟨[⟨0, "a.py", none⟩], [⟨0, 0, some 3, "t1", 100⟩], 1, 1⟩
    [⟨"a.py", some 3, "t1"⟩] 200 false
    ⟨by decide, by decide, by decide, by decide, by decide⟩
    (by decide) (by decide)

/-- C10, counterexample to the claim as stated: with an empty collected
list every item is vacuously known and the reset flag is on, yet the
hook returns before touching the store — the store keeps its entries
instead of being dropped. -/
theorem collection_hook_empty_counterexample :
    pytest_collection_modifyitems
        ⟨[⟨0, "a.py", none⟩], [⟨0, 0, some 3, "t1", 100⟩], 1, 1⟩
        [] 200 false true
      = .ok (⟨[⟨0, "a.py", none⟩], [⟨0, 0, some 3, "t1", 100⟩], 1, 1⟩, [])
    ∧ (⟨[⟨0, "a.py", none⟩], [⟨0, 0, some 3, "t1", 100⟩], 1, 1⟩
        : DbState).items ≠ [] := by
  constructor
  · rfl
  · decide

end PytestSamples